import Mathlib

/-!
# Retry loops of `raver119/retry`

A shallow embedding of `retry.go` and of the two helpers of `network.go`.

* An operation `f func() error` is a closure over mutable state: it is embedded as a
  state transformer `Op σ ε := σ → Option ε × σ`, where `none` is Go's `nil` error.
* Every loop threads a `World`: the state the closure (and the clock, and the
  cancellation signal) lives in, together with a chronological log of the
  observable actions of the loop, namely invocations of `f` and calls to `time.Sleep`.
* `for { ... }` loops need not terminate, so every loop takes a fuel argument that
  bounds the number of times the loop head is reached; `none` means that the fuel
  ran out before the Go function returned.
* `int` is the 64-bit two's complement integer: the loop counter of `MultipleTimes`
  is incremented with `wrapInt`.
* `time.Duration` is a number of nanoseconds.
-/

namespace Retry

/-! ## Data model -/

/-- Observable actions of a retry loop. -/
inductive Event where
  | call : Event
  | sleep : Int → Event
  deriving DecidableEq

/-- The state the operation closes over, and the log of what the loop did so far. -/
structure World (σ : Type) where
  st : σ
  log : List Event

/-- Go `func() error` closing over state of type `σ`; `none` is the `nil` error. -/
abbrev Op (σ ε : Type) := σ → Option ε × σ

/-- The result of a Go function returning `error`: `none` when the fuel ran out,
otherwise the returned error (`none` for `nil`) and the world left behind. -/
abbrev Outcome (σ ε : Type) := Option (Option ε × World σ)

/-- The capabilities of package `time` the loops use: `sleep d` is the effect of
`time.Sleep(d)` on the state, `now` is the reading of `time.Now()` in nanoseconds. -/
structure Runtime (σ : Type) where
  sleep : Int → σ → σ
  now : σ → Int

/-- A `context.Context` as the loops observe it: `done s` tells whether the channel
`ctx.Done()` is closed in state `s`, `err s` is `ctx.Err()`. The interface contract
"if Done is closed, Err returns a non-nil error" is the field `err_of_done`. -/
structure Context (σ ε : Type) where
  done : σ → Bool
  err : σ → Option ε
  err_of_done : ∀ s, done s = true → err s ≠ none

/-- Largest value of Go `int` (64 bit). -/
def maxInt : Int := 9223372036854775807

/-- Smallest value of Go `int` (64 bit). -/
def minInt : Int := -9223372036854775808

/-- Two's complement wrap-around of an integer result into the range of `int`. -/
def wrapInt (x : Int) : Int := (x + 9223372036854775808) % 18446744073709551616 - 9223372036854775808

/-- Range of `time.Duration` (`int64` nanoseconds). -/
def maxDuration : Int := 9223372036854775807

/-- Smallest `time.Duration`. -/
def minDuration : Int := -9223372036854775808

/-- Duration `time.Millisecond` in nanoseconds. -/
def Millisecond : Int := 1000000

/-- The call `time.Since(start)`, that is `time.Now().Sub(start)`: the difference of the
two readings, saturated to the range of `time.Duration`. -/
def Since {σ : Type} (rt : Runtime σ) (start : Int) (s : σ) : Int :=
  max minDuration (min maxDuration (rt.now s - start))

/-- One invocation `f()`: runs the closure on the state and logs the call. -/
def invoke {σ ε : Type} (f : Op σ ε) (w : World σ) : Option ε × World σ :=
  ((f w.st).1, { st := (f w.st).2, log := w.log ++ [Event.call] })

/-- The call `time.Sleep(d)`. -/
def doSleep {σ : Type} (rt : Runtime σ) (d : Int) (w : World σ) : World σ :=
  { st := rt.sleep d w.st, log := w.log ++ [Event.sleep d] }

/-! ## The loops of `retry.go` -/

/-- Go `UntilError`. -/
def UntilError {σ ε : Type} (f : Op σ ε) : Nat → World σ → Outcome σ ε
  | 0, _ => none
  | fuel + 1, w =>
    match invoke f w with
    | (some e, w1) => some (some e, w1)
    | (none, w1) => UntilError f fuel w1

/-- Go `UntilErrorWithDelay`. -/
def UntilErrorWithDelay {σ ε : Type} (rt : Runtime σ) (delay : Int) (f : Op σ ε) :
    Nat → World σ → Outcome σ ε
  | 0, _ => none
  | fuel + 1, w =>
    match invoke f w with
    | (some e, w1) => some (some e, w1)
    | (none, w1) => UntilErrorWithDelay rt delay f fuel (doSleep rt delay w1)

/-- Go `UntilErrorOrCancel`: the `select` takes the `ctx.Done()` case exactly when the
channel is closed, otherwise the `default` case. -/
def UntilErrorOrCancel {σ ε : Type} (ctx : Context σ ε) (f : Op σ ε) :
    Nat → World σ → Outcome σ ε
  | 0, _ => none
  | fuel + 1, w =>
    if ctx.done w.st then some (ctx.err w.st, w)
    else
      match invoke f w with
      | (some e, w1) => some (some e, w1)
      | (none, w1) => UntilErrorOrCancel ctx f fuel w1

/-- Loop of Go `UntilErrorOrTimeout`, after `start := time.Now()`. -/
def UntilErrorOrTimeout.loop {σ ε : Type} (rt : Runtime σ) (ErrTimeout : ε) (timeout : Int)
    (start : Int) (f : Op σ ε) : Nat → World σ → Outcome σ ε
  | 0, _ => none
  | fuel + 1, w =>
    match invoke f w with
    | (some e, w1) => some (some e, w1)
    | (none, w1) =>
      if Since rt start w1.st > timeout then some (some ErrTimeout, w1)
      else UntilErrorOrTimeout.loop rt ErrTimeout timeout start f fuel w1

/-- Go `UntilErrorOrTimeout`. The sentinel `ErrTimeout` is a package-level error value
declared in another file of the package; it is taken as a parameter. -/
def UntilErrorOrTimeout {σ ε : Type} (rt : Runtime σ) (ErrTimeout : ε) (timeout : Int)
    (f : Op σ ε) (fuel : Nat) (w : World σ) : Outcome σ ε :=
  UntilErrorOrTimeout.loop rt ErrTimeout timeout (rt.now w.st) f fuel w

/-- Go `UntilSuccess`. -/
def UntilSuccess {σ ε : Type} (f : Op σ ε) : Nat → World σ → Outcome σ ε
  | 0, _ => none
  | fuel + 1, w =>
    match invoke f w with
    | (none, w1) => some (none, w1)
    | (some _, w1) => UntilSuccess f fuel w1

/-- Go `UntilSuccessWithDelay`. -/
def UntilSuccessWithDelay {σ ε : Type} (rt : Runtime σ) (delay : Int) (f : Op σ ε) :
    Nat → World σ → Outcome σ ε
  | 0, _ => none
  | fuel + 1, w =>
    match invoke f w with
    | (none, w1) => some (none, w1)
    | (some _, w1) => UntilSuccessWithDelay rt delay f fuel (doSleep rt delay w1)

/-- Loop of Go `UntilSuccessOrTimeout`, after `start := time.Now()`. -/
def UntilSuccessOrTimeout.loop {σ ε : Type} (rt : Runtime σ) (ErrTimeout : ε) (timeout : Int)
    (start : Int) (f : Op σ ε) : Nat → World σ → Outcome σ ε
  | 0, _ => none
  | fuel + 1, w =>
    match invoke f w with
    | (none, w1) => some (none, w1)
    | (some _, w1) =>
      if Since rt start w1.st > timeout then some (some ErrTimeout, w1)
      else UntilSuccessOrTimeout.loop rt ErrTimeout timeout start f fuel w1

/-- Go `UntilSuccessOrTimeout`; the body never reads its context argument. The sentinel
`ErrTimeout` is a package-level error value declared in another file of the package; it is
taken as a parameter. -/
def UntilSuccessOrTimeout {σ ε : Type} (rt : Runtime σ) (ErrTimeout : ε) (_ctx : Context σ ε)
    (timeout : Int) (f : Op σ ε) (fuel : Nat) (w : World σ) : Outcome σ ε :=
  UntilSuccessOrTimeout.loop rt ErrTimeout timeout (rt.now w.st) f fuel w

/-- Go `UntilSuccessOrCancel`. -/
def UntilSuccessOrCancel {σ ε : Type} (ctx : Context σ ε) (f : Op σ ε) :
    Nat → World σ → Outcome σ ε
  | 0, _ => none
  | fuel + 1, w =>
    if ctx.done w.st then some (ctx.err w.st, w)
    else
      match invoke f w with
      | (none, w1) => some (none, w1)
      | (some _, w1) => UntilSuccessOrCancel ctx f fuel w1

/-- Loop of Go `MultipleTimes`: `i` is the loop counter and `err` the named result, which
holds the error of the latest invocation. -/
def MultipleTimes.loop {σ ε : Type} (times : Int) (f : Op σ ε) :
    Nat → Int → Option ε → World σ → Outcome σ ε
  | 0, _, _, _ => none
  | fuel + 1, i, err, w =>
    if i ≤ times then
      match invoke f w with
      | (none, w1) => some (none, w1)
      | (some e, w1) => MultipleTimes.loop times f fuel (wrapInt (i + 1)) (some e) w1
    else some (err, w)

/-- Go `MultipleTimes`. -/
def MultipleTimes {σ ε : Type} (times : Int) (f : Op σ ε) (fuel : Nat) (w : World σ) :
    Outcome σ ε :=
  MultipleTimes.loop times f fuel 0 none w

/-- Loop of Go `MultipleTimesWithDelay`. -/
def MultipleTimesWithDelay.loop {σ ε : Type} (rt : Runtime σ) (times : Int) (delay : Int)
    (f : Op σ ε) : Nat → Int → Option ε → World σ → Outcome σ ε
  | 0, _, _, _ => none
  | fuel + 1, i, err, w =>
    if i ≤ times then
      match invoke f w with
      | (none, w1) => some (none, w1)
      | (some e, w1) =>
        MultipleTimesWithDelay.loop rt times delay f fuel (wrapInt (i + 1)) (some e)
          (if i < wrapInt (times - 1) ∧ delay > 0 then doSleep rt delay w1 else w1)
    else some (err, w)

/-- Go `MultipleTimesWithDelay`. -/
def MultipleTimesWithDelay {σ ε : Type} (rt : Runtime σ) (times : Int) (delay : Int)
    (f : Op σ ε) (fuel : Nat) (w : World σ) : Outcome σ ε :=
  MultipleTimesWithDelay.loop rt times delay f fuel 0 none w

/-- Go `Once`. -/
def Once {σ ε : Type} (f : Op σ ε) (fuel : Nat) (w : World σ) : Outcome σ ε :=
  MultipleTimes 1 f fuel w

/-- Go `OnceWithSmallDelay`. -/
def OnceWithSmallDelay {σ ε : Type} (rt : Runtime σ) (f : Op σ ε) (fuel : Nat) (w : World σ) :
    Outcome σ ε :=
  MultipleTimesWithDelay rt 1 (100 * Millisecond) f fuel w

/-- Go `Twice`. -/
def Twice {σ ε : Type} (f : Op σ ε) (fuel : Nat) (w : World σ) : Outcome σ ε :=
  MultipleTimes 2 f fuel w

/-- Go `TwiceWithSmallDelay`. -/
def TwiceWithSmallDelay {σ ε : Type} (rt : Runtime σ) (f : Op σ ε) (fuel : Nat) (w : World σ) :
    Outcome σ ε :=
  MultipleTimesWithDelay rt 2 (100 * Millisecond) f fuel w

/-- Go `Thrice`. -/
def Thrice {σ ε : Type} (f : Op σ ε) (fuel : Nat) (w : World σ) : Outcome σ ε :=
  MultipleTimes 3 f fuel w

/-- Go `ThriceWithSmallDelay`. -/
def ThriceWithSmallDelay {σ ε : Type} (rt : Runtime σ) (f : Op σ ε) (fuel : Nat) (w : World σ) :
    Outcome σ ε :=
  MultipleTimesWithDelay rt 3 (100 * Millisecond) f fuel w

/-- Go `UntilSucceededOrCancelledWithDelay`. -/
def UntilSucceededOrCancelledWithDelay {σ ε : Type} (rt : Runtime σ) (ctx : Context σ ε)
    (delay : Int) (f : Op σ ε) : Nat → World σ → Outcome σ ε
  | 0, _ => none
  | fuel + 1, w =>
    if ctx.done w.st then some (ctx.err w.st, w)
    else
      match invoke f w with
      | (none, w1) => some (none, w1)
      | (some _, w1) =>
        UntilSucceededOrCancelledWithDelay rt ctx delay f fuel
          (if delay > 0 then doSleep rt delay w1 else w1)

/-! ## The helpers of `network.go` -/

/-- The state the network helpers act on: the environment `env` that decides how a dial
goes (network, clock), the connections that are open (each named by its remote address),
and the addresses handed to `net.Dial` so far, in order. -/
structure NetWorld (σ : Type) where
  env : σ
  conns : List String
  dialed : List String

/-- The call `net.Dial(network, address)` as an arbitrary fallible operation on the
environment: `none` means that a connection was established. -/
abbrev Dialer (σ ε : Type) := String → String → σ → Option ε × σ

/-- The network name both helpers dial. -/
def tcp : String := "tcp"

/-- The string `fmt.Sprintf("%s:%d", address, port)`. -/
def hostPort (address : String) (port : Int) : String :=
  address ++ ":" ++ toString port

/-- The closure both helpers retry: `_, err := net.Dial("tcp", ...); return err`. A dial
that succeeds leaves a connection open; the closure drops the connection value and never
calls `Close` on it. -/
def dialAttempt {σ ε : Type} (dial : Dialer σ ε) (address : String) (port : Int) :
    Op (NetWorld σ) ε :=
  fun s =>
    match dial tcp (hostPort address port) s.env with
    | (none, env1) =>
      (none, { env := env1, conns := s.conns ++ [hostPort address port],
               dialed := s.dialed ++ [hostPort address port] })
    | (some e, env1) =>
      (some e, { env := env1, conns := s.conns,
                 dialed := s.dialed ++ [hostPort address port] })

/-- Go `ConnectionUntilConnected`. -/
def ConnectionUntilConnected {σ ε : Type} (dial : Dialer σ ε) (address : String) (port : Int)
    (fuel : Nat) (w : World (NetWorld σ)) : Outcome (NetWorld σ) ε :=
  UntilSuccess (dialAttempt dial address port) fuel w

/-- What `context.WithTimeout` hands back: the context and its `cancel` function, whose
effect on the environment is `cancel`. -/
structure TimerContext (σ ε : Type) where
  ctx : Context σ ε
  cancel : σ → σ

/-- A context that observes the environment, seen as a context on the state of the
network helpers. -/
def Context.onEnv {σ ε : Type} (c : Context σ ε) : Context (NetWorld σ) ε :=
  { done := fun s => c.done s.env
    err := fun s => c.err s.env
    err_of_done := fun s h => c.err_of_done s.env h }

/-- The deferred call `cancel()` that runs when `ConnectionUntilConnectedOrTimeout`
returns. -/
def runDeferred {σ : Type} (cancel : σ → σ) (w : World (NetWorld σ)) : World (NetWorld σ) :=
  { st := { env := cancel w.st.env, conns := w.st.conns, dialed := w.st.dialed }, log := w.log }

/-- Go `ConnectionUntilConnectedOrTimeout`. The library function
`context.WithTimeout(context.Background(), timeout)` is the parameter `WithTimeout`: from
the timeout and the environment at the time of the call it gives the context and its
cancel function. -/
def ConnectionUntilConnectedOrTimeout {σ ε : Type} (WithTimeout : Int → σ → TimerContext σ ε)
    (dial : Dialer σ ε) (timeout : Int) (address : String) (port : Int)
    (fuel : Nat) (w : World (NetWorld σ)) : Outcome (NetWorld σ) ε :=
  match UntilSuccessOrCancel (WithTimeout timeout w.st.env).ctx.onEnv
      (dialAttempt dial address port) fuel w with
  | none => none
  | some (r, w1) => some (r, runDeferred (WithTimeout timeout w.st.env).cancel w1)

/-! ## Vocabulary of the statements -/

/-- State reached after `k` successive invocations of `f` from `s`, nothing else
touching the state in between. -/
def stateAfter {σ ε : Type} (f : Op σ ε) (s : σ) : Nat → σ
  | 0 => s
  | k + 1 => (f (stateAfter f s k)).2

/-- What the `(k+1)`-th of successive invocations of `f` from `s` returns. -/
def outcome {σ ε : Type} (f : Op σ ε) (s : σ) (k : Nat) : Option ε :=
  (f (stateAfter f s k)).1

/-- The world after `k` successive invocations of `f` and nothing else. -/
def runCalls {σ ε : Type} (f : Op σ ε) (w : World σ) (k : Nat) : World σ :=
  { st := stateAfter f w.st k, log := w.log ++ List.replicate k Event.call }

/-- Number of invocations of the operation in a log. -/
def countCalls (evs : List Event) : Nat :=
  evs.countP (fun e => decide (e = Event.call))

/-- Number of calls to `time.Sleep` in a log. -/
def countSleeps (evs : List Event) : Nat :=
  evs.countP (fun e => decide (e ≠ Event.call))

/-- What a returned call lets its caller observe: the error it returned, the state it
left behind and the number of invocations of the operation in the log. -/
def observe {σ ε : Type} (p : Option ε × World σ) : Option ε × σ × Nat :=
  (p.1, p.2.st, countCalls p.2.log)

/-- A runtime that does nothing to the state; its clock stands still. -/
def idleRuntime (σ : Type) : Runtime σ :=
  { sleep := fun _ s => s, now := fun _ => 0 }

/-! ## Concrete operations and signals used to instantiate the statements -/

/-- An operation counting its invocations in the state: it fails on the first `k`
invocations, the `i`-th failure carrying the error value `i`, and succeeds afterwards. -/
def failFirst (k : Nat) : Op Nat Nat :=
  fun i => (if i < k then some (i + 1) else none, i + 1)

/-- An operation counting its invocations in the state: it succeeds on the first `k`
invocations and fails afterwards, the `i`-th invocation failing with error value `i`. -/
def succeedFirst (k : Nat) : Op Nat Nat :=
  fun i => (if i < k then none else some (i + 1), i + 1)

/-- An operation counting its invocations in the state that fails every time, the `i`-th
invocation with error value `i`. -/
def alwaysFail : Op Nat Nat :=
  fun i => (some (i + 1), i + 1)

/-- The error held by the named result `err` of `MultipleTimes` after `k` further failed
invocations: the one it had for `k = 0`, otherwise what the `k`-th invocation returned. -/
def heldError {σ ε : Type} (f : Op σ ε) (s : σ) (err : Option ε) : Nat → Option ε
  | 0 => err
  | k + 1 => outcome f s k

/-- A cancellation signal kept in the second component of the state: it has fired when
the flag is set, and its error is then the value 0 (standing for `context.Canceled`). -/
def flagContext : Context (Nat × Bool) Nat :=
  { done := fun s => s.2
    err := fun s => if s.2 then some 0 else none
    err_of_done := by intro s h; simp [h] }

/-- The operation of `TestUntilErrorOrCancel` (`fails = false`) and of
`TestUntilSuccessOrCancel` (`fails = true`): it counts its invocations in the first
component of the state and fires the signal during its `k`-th invocation. -/
def cancelAt (k : Nat) (fails : Bool) : Op (Nat × Bool) Nat :=
  fun s => (if fails then some (s.1 + 1) else none, (s.1 + 1, s.2 || decide (s.1 + 1 = k)))

/-- A runtime whose sleeps leave a counter-and-flag state alone. -/
def flagRuntime : Runtime (Nat × Bool) :=
  { sleep := fun _ s => s, now := fun s => (s.1 : Int) }

/-- A context on a counter state that is never cancelled. -/
def neverContext : Context Nat Nat :=
  { done := fun _ => false
    err := fun _ => none
    err_of_done := by intro s h; simp at h }

/-- A context on a counter state that has been cancelled from the start; its error is
the value 0. -/
def firedContext : Context Nat Nat :=
  { done := fun _ => true
    err := fun _ => some 0
    err_of_done := by intro s _; simp }

/-- A runtime on a state that is the clock itself, in nanoseconds: sleeping for `d`
advances it by `d`. -/
def clockRuntime : Runtime Nat :=
  { sleep := fun d s => s + d.toNat, now := fun s => (s : Int) }

/-- An operation that watches the clock: it fails with the error 1 until 3 ns have
passed, and every invocation takes 1 ns. -/
def waitingOp : Op Nat Nat :=
  fun s => (if 3 ≤ s then none else some 1, s + 1)

/-- The host name used in `TestConnectionUntilConnected`. -/
def localhost : String := "localhost"

/-- A dialer nobody listens to: every dial fails with the error 111 and takes one tick of
the environment, which is a clock. -/
def refusing : Dialer Nat Nat :=
  fun _ _ t => (some 111, t + 1)

/-- A dialer with a live listener: every dial connects and takes one tick. -/
def listening : Dialer Nat Nat :=
  fun _ _ t => (none, t + 1)

/-- A timer context on a clock environment: it has fired once `timeout` ticks have passed
since it was made, and its error is then the value 2 (for `context.DeadlineExceeded`). -/
def deadlineTimer (timeout : Int) (t0 : Nat) : TimerContext Nat Nat :=
  { ctx :=
      { done := fun t => decide ((t0 : Int) + timeout ≤ (t : Int))
        err := fun t => if (t0 : Int) + timeout ≤ (t : Int) then some 2 else none
        err_of_done := by
          intro t h
          have h2 : (t0 : Int) + timeout ≤ (t : Int) := of_decide_eq_true h
          simp [h2] }
    cancel := fun t => t }

/-- A runtime whose clock and sleeps do not touch a counter state; the clock reads the
counter itself, as if every invocation took one nanosecond. -/
def counterRuntime : Runtime Nat :=
  { sleep := fun _ s => s, now := fun s => (s : Int) }

end Retry

namespace Retry

/-! ## Successive invocations -/

theorem stateAfter_shift {σ ε : Type} (f : Op σ ε) (s : σ) (k : Nat) :
    stateAfter f (f s).2 k = stateAfter f s (k + 1) := by
  induction k with
  | zero => rfl
  | succ k ih => simp only [stateAfter, ih]

theorem outcome_shift {σ ε : Type} (f : Op σ ε) (s : σ) (k : Nat) :
    outcome f (f s).2 k = outcome f s (k + 1) := by
  simp only [outcome, stateAfter_shift]

theorem invoke_eq {σ ε : Type} (f : Op σ ε) (w : World σ) :
    invoke f w = (outcome f w.st 0, runCalls f w 1) := rfl

theorem runCalls_zero {σ ε : Type} (f : Op σ ε) (w : World σ) : runCalls f w 0 = w := by
  cases w
  simp [runCalls, stateAfter]

theorem runCalls_shift {σ ε : Type} (f : Op σ ε) (w : World σ) (k : Nat) :
    runCalls f (runCalls f w 1) k = runCalls f w (k + 1) := by
  simp only [runCalls, stateAfter, stateAfter_shift, List.append_assoc, World.mk.injEq, true_and,
    List.append_cancel_left_eq]
  rw [Nat.add_comm k 1, List.replicate_add]

theorem outcome_runCalls_one {σ ε : Type} (f : Op σ ε) (w : World σ) (k : Nat) :
    outcome f (runCalls f w 1).st k = outcome f w.st (k + 1) :=
  outcome_shift f w.st k

theorem stateAfter_runCalls_one {σ ε : Type} (f : Op σ ε) (w : World σ) (k : Nat) :
    stateAfter f (runCalls f w 1).st k = stateAfter f w.st (k + 1) :=
  stateAfter_shift f w.st k

/-! ## `UntilError` and `UntilSuccess` -/

/-- C3: if the first `K` successive invocations of `f` succeed and the next one fails with
`e`, then `UntilError f` returns (any fuel of at least `K + 1` loop rounds suffices), its
result is `e`, and it has invoked `f` exactly `K + 1` times and done nothing else. -/
theorem UntilError_returns_first_failure {σ ε : Type} (f : Op σ ε) (K : Nat) (e : ε)
    (w : World σ) (fuel : Nat)
    (hok : ∀ i, i < K → outcome f w.st i = none)
    (hfail : outcome f w.st K = some e)
    (hfuel : K + 1 ≤ fuel) :
    UntilError f fuel w = some (some e, runCalls f w (K + 1)) := by
  induction K generalizing w fuel with
  | zero =>
    obtain ⟨n, rfl⟩ : ∃ n, fuel = n + 1 := ⟨fuel - 1, by omega⟩
    simp only [UntilError, invoke_eq, hfail]
  | succ K ih =>
    obtain ⟨n, rfl⟩ : ∃ n, fuel = n + 1 := ⟨fuel - 1, by omega⟩
    have h0 : outcome f w.st 0 = none := hok 0 (by omega)
    simp only [UntilError, invoke_eq, h0]
    rw [ih (runCalls f w 1) n ?_ ?_ (by omega), runCalls_shift]
    · intro i hi
      rw [outcome_runCalls_one]
      exact hok (i + 1) (by omega)
    · rw [outcome_runCalls_one]
      exact hfail

/-- Witness for C3: two successes, then the failure number 3, as in `TestUntilError`. -/
theorem UntilError_returns_first_failure_witness :
    UntilError (succeedFirst 2) 3 ⟨0, []⟩
      = some (some 3, runCalls (succeedFirst 2) ⟨0, []⟩ 3) :=
  UntilError_returns_first_failure (succeedFirst 2) 2 3 ⟨0, []⟩ 3
    (by intro i hi; interval_cases i <;> rfl) (by rfl) (by decide)

/-- C4: if the first `K` successive invocations of `f` fail and the next one succeeds,
then `UntilSuccess f` returns (any fuel of at least `K + 1` loop rounds suffices), its
result is `nil`, and it has invoked `f` exactly `K + 1` times and done nothing else. -/
theorem UntilSuccess_returns_nil {σ ε : Type} (f : Op σ ε) (K : Nat)
    (w : World σ) (fuel : Nat)
    (hfail : ∀ i, i < K → outcome f w.st i ≠ none)
    (hok : outcome f w.st K = none)
    (hfuel : K + 1 ≤ fuel) :
    UntilSuccess f fuel w = some (none, runCalls f w (K + 1)) := by
  induction K generalizing w fuel with
  | zero =>
    obtain ⟨n, rfl⟩ : ∃ n, fuel = n + 1 := ⟨fuel - 1, by omega⟩
    simp only [UntilSuccess, invoke_eq, hok]
  | succ K ih =>
    obtain ⟨n, rfl⟩ : ∃ n, fuel = n + 1 := ⟨fuel - 1, by omega⟩
    obtain ⟨e, h0⟩ : ∃ e, outcome f w.st 0 = some e :=
      Option.ne_none_iff_exists'.mp (hfail 0 (by omega))
    simp only [UntilSuccess, invoke_eq, h0]
    rw [ih (runCalls f w 1) n ?_ ?_ (by omega), runCalls_shift]
    · intro i hi
      rw [outcome_runCalls_one]
      exact hfail (i + 1) (by omega)
    · rw [outcome_runCalls_one]
      exact hok

/-- Witness for C4: failure on calls 1 and 2, success on call 3, as in `TestUntilSuccess`:
the result is `nil` and the invocation count (the counter state) is 3. -/
theorem UntilSuccess_returns_nil_witness :
    UntilSuccess (failFirst 2) 3 ⟨0, []⟩
      = some (none, ⟨3, [Event.call, Event.call, Event.call]⟩) :=
  UntilSuccess_returns_nil (failFirst 2) 2 ⟨0, []⟩ 3
    (by intro i hi; interval_cases i <;> simp [outcome, stateAfter, failFirst])
    (by rfl) (by decide)

/-! ## `MultipleTimes` -/

theorem wrapInt_of_mem_range (x : Int) (hlo : minInt ≤ x) (hhi : x ≤ maxInt) : wrapInt x = x := by
  simp only [minInt, maxInt] at hlo hhi
  simp only [wrapInt]
  omega

theorem wrapInt_le_maxInt (x : Int) : wrapInt x ≤ maxInt := by
  simp only [wrapInt, maxInt]
  omega

/-- While the counter stays within `times` and within the range of `int`, `k` failing
invocations take the loop of `MultipleTimes` through `k` rounds. -/
theorem MultipleTimes.loop_failures {σ ε : Type} (times : Int) (f : Op σ ε) (k : Nat) :
    ∀ (fuel : Nat) (i : Int) (err : Option ε) (w : World σ),
      minInt ≤ i → i + k ≤ maxInt → i + k ≤ times + 1 →
      (∀ j, j < k → outcome f w.st j ≠ none) →
      MultipleTimes.loop times f (fuel + k) i err w
        = MultipleTimes.loop times f fuel (i + k) (heldError f w.st err k) (runCalls f w k) := by
  induction k with
  | zero =>
    intro fuel i err w _ _ _ _
    simp [heldError, runCalls_zero]
  | succ k ih =>
    intro fuel i err w hlo hhi htimes hfail
    obtain ⟨e, h0⟩ : ∃ e, outcome f w.st 0 = some e :=
      Option.ne_none_iff_exists'.mp (hfail 0 (by omega))
    have hi : i ≤ times := by push_cast at htimes; omega
    have hwrap : wrapInt (i + 1) = i + 1 :=
      wrapInt_of_mem_range _ (by omega) (by push_cast at hhi; omega)
    rw [show fuel + (k + 1) = (fuel + k) + 1 by omega]
    simp only [MultipleTimes.loop, hi, if_true, invoke_eq, h0, hwrap]
    rw [ih fuel (i + 1) (some e) (runCalls f w 1) (by omega) (by push_cast at hhi ⊢; omega)
      (by push_cast at htimes ⊢; omega)
      (by intro j hj; rw [outcome_runCalls_one]; exact hfail (j + 1) (by omega))]
    rw [runCalls_shift]
    have hheld : heldError f (runCalls f w 1).st (some e) k = heldError f w.st err (k + 1) := by
      cases k with
      | zero => simp [heldError, h0]
      | succ k => simp only [heldError, outcome_runCalls_one]
    rw [hheld]
    congr 1
    push_cast
    omega

theorem outcome_runCalls {σ ε : Type} (f : Op σ ε) (w : World σ) (k : Nat) :
    outcome f (runCalls f w k).st 0 = outcome f w.st k := rfl

theorem runCalls_runCalls_one {σ ε : Type} (f : Op σ ε) (w : World σ) (k : Nat) :
    runCalls f (runCalls f w k) 1 = runCalls f w (k + 1) := by
  simp only [runCalls, stateAfter, List.append_assoc, World.mk.injEq, true_and,
    List.append_cancel_left_eq]
  rw [List.replicate_add]

/-- C1: for every `int` value `N` and every `K` with `0 ≤ K ≤ N`, if the first `K`
successive invocations of `f` fail and the next one succeeds, then `MultipleTimes N f`
returns (any fuel of at least `K + 1` loop rounds suffices), its result is `nil`, and it
has invoked `f` exactly `K + 1` times and done nothing else: no invocation follows the
first success. -/
theorem MultipleTimes_stops_at_first_success {σ ε : Type} (N : Int) (K : Nat) (f : Op σ ε)
    (w : World σ) (fuel : Nat)
    (hN : N ≤ maxInt) (hK : (K : Int) ≤ N)
    (hfail : ∀ i, i < K → outcome f w.st i ≠ none)
    (hok : outcome f w.st K = none)
    (hfuel : K + 1 ≤ fuel) :
    MultipleTimes N f fuel w = some (none, runCalls f w (K + 1)) := by
  obtain ⟨n, rfl⟩ : ∃ n, fuel = (n + 1) + K := ⟨fuel - (K + 1), by omega⟩
  have hmin : minInt ≤ 0 := by decide
  rw [MultipleTimes, MultipleTimes.loop_failures N f K (n + 1) 0 none w hmin (by omega)
    (by omega) hfail]
  have hle : (0 : Int) + K ≤ N := by omega
  simp only [MultipleTimes.loop, hle, if_true, invoke_eq, outcome_runCalls, hok,
    runCalls_runCalls_one]

/-- Witness for C1: `MultipleTimes(3, f)` with `f` failing three times and succeeding on
the fourth call, as in `TestMultipleTimes`: `nil` after 4 invocations. -/
theorem MultipleTimes_stops_at_first_success_witness :
    MultipleTimes 3 (failFirst 3) 4 ⟨0, []⟩
      = some (none, ⟨4, [Event.call, Event.call, Event.call, Event.call]⟩) :=
  MultipleTimes_stops_at_first_success 3 3 (failFirst 3) ⟨0, []⟩ 4 (by decide) (by decide)
    (by intro i hi; interval_cases i <;> simp [outcome, stateAfter, failFirst])
    (by rfl) (by decide)

/-- C2, as the code has it: for every `N` with `0 ≤ N < maxInt`, if the first `N + 1`
successive invocations of `f` all fail, then `MultipleTimes N f` returns (any fuel of at
least `N + 2` loop rounds suffices), its result is exactly what the `(N+1)`-th, last,
invocation returned, and it has invoked `f` exactly `N + 1` times and done nothing else. -/
theorem MultipleTimes_returns_last_error {σ ε : Type} (N : Nat) (f : Op σ ε)
    (w : World σ) (fuel : Nat)
    (hN : (N : Int) < maxInt)
    (hfail : ∀ i, i ≤ N → outcome f w.st i ≠ none)
    (hfuel : N + 2 ≤ fuel) :
    MultipleTimes (N : Int) f fuel w = some (outcome f w.st N, runCalls f w (N + 1)) := by
  obtain ⟨n, rfl⟩ : ∃ n, fuel = (n + 1) + (N + 1) := ⟨fuel - (N + 2), by omega⟩
  have hmin : minInt ≤ 0 := by decide
  rw [MultipleTimes, MultipleTimes.loop_failures (N : Int) f (N + 1) (n + 1) 0 none w hmin
    (by push_cast; omega) (by push_cast; omega) (fun j hj => hfail j (by omega))]
  have hgt : ¬ ((0 : Int) + ((N + 1 : Nat) : Int) ≤ (N : Int)) := by push_cast; omega
  simp only [MultipleTimes.loop, hgt, if_false, heldError]

/-- Witness for C2: `MultipleTimes(2, f)` with `f` failing with the errors 1, 2, 3 on its
three invocations returns the error 3 of the last invocation. -/
theorem MultipleTimes_returns_last_error_witness :
    MultipleTimes ((2 : Nat) : Int) alwaysFail 4 ⟨0, []⟩
      = some (some 3, ⟨3, [Event.call, Event.call, Event.call]⟩) :=
  MultipleTimes_returns_last_error 2 alwaysFail ⟨0, []⟩ 4 (by decide)
    (by intro i hi; simp [outcome, alwaysFail]) (by decide)

/-- With `times = maxInt` the loop condition `i <= times` holds for every value of the
counter, so under an operation that always fails the loop never exits. -/
theorem MultipleTimes.loop_maxInt_diverges (fuel : Nat) :
    ∀ (i : Int) (err : Option Nat) (w : World Nat), i ≤ maxInt →
      MultipleTimes.loop maxInt alwaysFail fuel i err w = none := by
  induction fuel with
  | zero => intro i err w _; rfl
  | succ fuel ih =>
    intro i err w hi
    simp only [MultipleTimes.loop, hi, if_true, invoke, alwaysFail]
    exact ih _ _ _ (wrapInt_le_maxInt _)

/-- C2 fails for `N = maxInt`: every invocation of `alwaysFail` fails, yet
`MultipleTimes(maxInt, alwaysFail)` returns for no amount of fuel, because the counter
wraps around from `maxInt` to `minInt` and `i <= times` stays true. -/
theorem MultipleTimes_maxInt_never_returns :
    (∀ i, outcome alwaysFail 0 i ≠ none) ∧
      ¬ ∃ fuel r, MultipleTimes maxInt alwaysFail fuel ⟨0, []⟩ = some r := by
  refine ⟨by intro i; simp [outcome, alwaysFail], ?_⟩
  rintro ⟨fuel, r, h⟩
  rw [MultipleTimes, MultipleTimes.loop_maxInt_diverges fuel 0 none _ (by decide)] at h
  exact Option.noConfusion h

/-! ## Cancellation -/

/-- C5: for every `K` (the case `K = 0` is a signal that has fired on entry), if the
signal has not fired on entry nor after any of the first `K - 1` invocations, each of the first `K` successive invocations of `f` succeeds, and the signal
has fired once the `K`-th invocation is over, then `UntilErrorOrCancel ctx f` returns (any
fuel of at least `K + 1` loop rounds suffices) the error of the signal, which is not
`nil`, after exactly `K` invocations of `f`: there is no `(K+1)`-th invocation. -/
theorem UntilErrorOrCancel_cancelled_by_op {σ ε : Type} (ctx : Context σ ε) (f : Op σ ε)
    (K : Nat) (w : World σ) (fuel : Nat)
    (hlive : ∀ j, j < K → ctx.done (stateAfter f w.st j) = false)
    (hfire : ctx.done (stateAfter f w.st K) = true)
    (hok : ∀ i, i < K → outcome f w.st i = none)
    (hfuel : K + 1 ≤ fuel) :
    UntilErrorOrCancel ctx f fuel w = some (ctx.err (stateAfter f w.st K), runCalls f w K)
      ∧ ctx.err (stateAfter f w.st K) ≠ none := by
  refine ⟨?_, ctx.err_of_done _ hfire⟩
  induction K generalizing w fuel with
  | zero =>
    obtain ⟨n, rfl⟩ : ∃ n, fuel = n + 1 := ⟨fuel - 1, by omega⟩
    have h0 : ctx.done w.st = true := hfire
    simp only [UntilErrorOrCancel, h0, if_true, runCalls_zero, stateAfter]
  | succ K ih =>
    obtain ⟨n, rfl⟩ : ∃ n, fuel = n + 1 := ⟨fuel - 1, by omega⟩
    have hd : ctx.done w.st = false := hlive 0 (by omega)
    have h0 : outcome f w.st 0 = none := hok 0 (by omega)
    simp only [UntilErrorOrCancel, hd, invoke_eq, h0]
    rw [ih (runCalls f w 1) n ?_ ?_ ?_ (by omega), runCalls_shift, stateAfter_runCalls_one]
    · simp
    · intro j hj
      rw [stateAfter_runCalls_one]
      exact hlive (j + 1) (by omega)
    · rw [stateAfter_runCalls_one]
      exact hfire
    · intro i hi
      rw [outcome_runCalls_one]
      exact hok (i + 1) (by omega)

/-- Witness for C5: the operation of `TestUntilErrorOrCancel`, which returns `nil` every
time and cancels during its third invocation: the cancellation error after 3 calls. -/
theorem UntilErrorOrCancel_cancelled_by_op_witness :
    UntilErrorOrCancel flagContext (cancelAt 3 false) 4 ⟨(0, false), []⟩
        = some (some 0, ⟨(3, true), [Event.call, Event.call, Event.call]⟩)
      ∧ flagContext.err (stateAfter (cancelAt 3 false) (0, false) 3) ≠ none :=
  UntilErrorOrCancel_cancelled_by_op flagContext (cancelAt 3 false) 3 ⟨(0, false), []⟩ 4
    (by intro j hj; interval_cases j <;> rfl) (by rfl)
    (by intro i hi; interval_cases i <;> rfl) (by decide)

/-- C6: for every `K` (the case `K = 0` is a signal that has fired on entry), if the
signal has not fired on entry nor after any of the first `K - 1` invocations, each of the first `K` successive invocations of `f` fails, and the signal has
fired once the `K`-th invocation is over, then `UntilSuccessOrCancel ctx f` returns (any
fuel of at least `K + 1` loop rounds suffices) the error of the signal, which is not
`nil`, after exactly `K` invocations of `f`: there is no `(K+1)`-th invocation. -/
theorem UntilSuccessOrCancel_cancelled_by_op {σ ε : Type} (ctx : Context σ ε) (f : Op σ ε)
    (K : Nat) (w : World σ) (fuel : Nat)
    (hlive : ∀ j, j < K → ctx.done (stateAfter f w.st j) = false)
    (hfire : ctx.done (stateAfter f w.st K) = true)
    (hfail : ∀ i, i < K → outcome f w.st i ≠ none)
    (hfuel : K + 1 ≤ fuel) :
    UntilSuccessOrCancel ctx f fuel w = some (ctx.err (stateAfter f w.st K), runCalls f w K)
      ∧ ctx.err (stateAfter f w.st K) ≠ none := by
  refine ⟨?_, ctx.err_of_done _ hfire⟩
  induction K generalizing w fuel with
  | zero =>
    obtain ⟨n, rfl⟩ : ∃ n, fuel = n + 1 := ⟨fuel - 1, by omega⟩
    have h0 : ctx.done w.st = true := hfire
    simp only [UntilSuccessOrCancel, h0, if_true, runCalls_zero, stateAfter]
  | succ K ih =>
    obtain ⟨n, rfl⟩ : ∃ n, fuel = n + 1 := ⟨fuel - 1, by omega⟩
    have hd : ctx.done w.st = false := hlive 0 (by omega)
    obtain ⟨e, h0⟩ : ∃ e, outcome f w.st 0 = some e :=
      Option.ne_none_iff_exists'.mp (hfail 0 (by omega))
    simp only [UntilSuccessOrCancel, hd, invoke_eq, h0]
    rw [ih (runCalls f w 1) n ?_ ?_ ?_ (by omega), runCalls_shift, stateAfter_runCalls_one]
    · simp
    · intro j hj
      rw [stateAfter_runCalls_one]
      exact hlive (j + 1) (by omega)
    · rw [stateAfter_runCalls_one]
      exact hfire
    · intro i hi
      rw [outcome_runCalls_one]
      exact hfail (i + 1) (by omega)

/-- Witness for C6: the operation of `TestUntilSuccessOrCancel`, which fails every time
(with the errors 1, 2, 3) and cancels during its third invocation: the loop returns the
cancellation error 0 after 3 calls. -/
theorem UntilSuccessOrCancel_cancelled_by_op_witness :
    UntilSuccessOrCancel flagContext (cancelAt 3 true) 4 ⟨(0, false), []⟩
        = some (some 0, ⟨(3, true), [Event.call, Event.call, Event.call]⟩)
      ∧ flagContext.err (stateAfter (cancelAt 3 true) (0, false) 3) ≠ none :=
  UntilSuccessOrCancel_cancelled_by_op flagContext (cancelAt 3 true) 3 ⟨(0, false), []⟩ 4
    (by intro j hj; interval_cases j <;> rfl) (by rfl)
    (by intro i hi; interval_cases i <;> simp [outcome, stateAfter, cancelAt])
    (by decide)

/-- C7: if the signal has already fired on entry, then `UntilErrorOrCancel`,
`UntilSuccessOrCancel` and `UntilSucceededOrCancelledWithDelay` (for every runtime and
every delay) each return the error of the signal, which is not `nil`, and leave the world
as it was: the operation is not invoked and nothing sleeps. One loop round of fuel
suffices. -/
theorem cancelled_on_entry {σ ε : Type} (rt : Runtime σ) (ctx : Context σ ε) (delay : Int)
    (f : Op σ ε) (w : World σ) (fuel : Nat)
    (hfired : ctx.done w.st = true) :
    UntilErrorOrCancel ctx f (fuel + 1) w = some (ctx.err w.st, w)
      ∧ UntilSuccessOrCancel ctx f (fuel + 1) w = some (ctx.err w.st, w)
      ∧ UntilSucceededOrCancelledWithDelay rt ctx delay f (fuel + 1) w = some (ctx.err w.st, w)
      ∧ ctx.err w.st ≠ none := by
  refine ⟨?_, ?_, ?_, ctx.err_of_done _ hfired⟩
  · simp only [UntilErrorOrCancel, hfired, if_true]
  · simp only [UntilSuccessOrCancel, hfired, if_true]
  · simp only [UntilSucceededOrCancelledWithDelay, hfired, if_true]

/-- Witness for C7: a signal that has fired before the call, an operation that would fail
and a positive delay: the cancellation error comes back, the call counter stays 0 and the
log stays empty. -/
theorem cancelled_on_entry_witness :
    UntilErrorOrCancel flagContext (cancelAt 3 true) (0 + 1) ⟨(0, true), []⟩
        = some (flagContext.err (0, true), ⟨(0, true), []⟩)
      ∧ UntilSuccessOrCancel flagContext (cancelAt 3 true) (0 + 1) ⟨(0, true), []⟩
        = some (flagContext.err (0, true), ⟨(0, true), []⟩)
      ∧ UntilSucceededOrCancelledWithDelay flagRuntime flagContext 5 (cancelAt 3 true) (0 + 1)
          ⟨(0, true), []⟩
        = some (flagContext.err (0, true), ⟨(0, true), []⟩)
      ∧ flagContext.err (0, true) ≠ none :=
  cancelled_on_entry flagRuntime flagContext 5 (cancelAt 3 true) ⟨(0, true), []⟩ 0 (by rfl)

/-! ## `MultipleTimesWithDelay`: how often it sleeps -/

theorem countCalls_append (a b : List Event) :
    countCalls (a ++ b) = countCalls a + countCalls b := by
  simp [countCalls, List.countP_append]

theorem countSleeps_append (a b : List Event) :
    countSleeps (a ++ b) = countSleeps a + countSleeps b := by
  simp [countSleeps, List.countP_append]

theorem countCalls_call : countCalls [Event.call] = 1 := rfl

theorem countSleeps_call : countSleeps [Event.call] = 0 := rfl

theorem countCalls_sleep (d : Int) : countCalls [Event.sleep d] = 0 := by
  simp [countCalls]

theorem countSleeps_sleep (d : Int) : countSleeps [Event.sleep d] = 1 := by
  simp [countSleeps]

theorem runCalls_one_log {σ ε : Type} (f : Op σ ε) (w : World σ) :
    (runCalls f w 1).log = w.log ++ [Event.call] := rfl

theorem doSleep_log {σ : Type} (rt : Runtime σ) (d : Int) (w : World σ) :
    (doSleep rt d w).log = w.log ++ [Event.sleep d] := rfl

/-- A returning run of the loop of `MultipleTimesWithDelay` only appends to the log, and
appends at least one call when it starts with the counter within `times`. -/
theorem MultipleTimesWithDelay.loop_extends {σ ε : Type} (rt : Runtime σ) (times delay : Int)
    (f : Op σ ε) (fuel : Nat) :
    ∀ (i : Int) (err : Option ε) (w : World σ) (res : Option ε) (w1 : World σ),
      MultipleTimesWithDelay.loop rt times delay f fuel i err w = some (res, w1) →
      ∃ evs, w1.log = w.log ++ evs ∧ (i ≤ times → 1 ≤ countCalls evs) := by
  induction fuel with
  | zero =>
    intro i err w res w1 h
    simp [MultipleTimesWithDelay.loop] at h
  | succ fuel ih =>
    intro i err w res w1 h
    by_cases hit : i ≤ times
    · simp only [MultipleTimesWithDelay.loop, hit, if_true, invoke_eq] at h
      cases h0 : outcome f w.st 0 with
      | none =>
        simp only [h0, Option.some.injEq, Prod.mk.injEq] at h
        obtain ⟨-, rfl⟩ := h
        exact ⟨[Event.call], rfl, fun _ => by simp [countCalls_call]⟩
      | some e =>
        simp only [h0] at h
        obtain ⟨evs, hlog, -⟩ := ih _ _ _ _ _ h
        by_cases hs : i < wrapInt (times - 1) ∧ delay > 0
        · rw [if_pos hs, doSleep_log, runCalls_one_log] at hlog
          refine ⟨[Event.call] ++ ([Event.sleep delay] ++ evs), by simp [hlog], fun _ => ?_⟩
          rw [countCalls_append, countCalls_call]
          omega
        · rw [if_neg hs, runCalls_one_log] at hlog
          refine ⟨[Event.call] ++ evs, by simp [hlog], fun _ => ?_⟩
          rw [countCalls_append, countCalls_call]
          omega
    · simp only [MultipleTimesWithDelay.loop, hit, if_false, Option.some.injEq,
        Prod.mk.injEq] at h
      obtain ⟨-, rfl⟩ := h
      exact ⟨[], by simp, fun hle => absurd hle hit⟩

/-- The sleeps of a returning run of the loop of `MultipleTimesWithDelay` that starts with
the counter at `i` and ends before the counter leaves the range of `int`. -/
theorem MultipleTimesWithDelay.loop_sleeps {σ ε : Type} (rt : Runtime σ) (times delay : Int)
    (f : Op σ ε) (h1 : 1 ≤ times) (hmax : times ≤ maxInt) (hd : 0 < delay) (fuel : Nat) :
    ∀ (i : Int) (err : Option ε) (w : World σ) (res : Option ε) (w1 : World σ),
      0 ≤ i → i ≤ times →
      MultipleTimesWithDelay.loop rt times delay f fuel i err w = some (res, w1) →
      ∃ evs, w1.log = w.log ++ evs ∧ 1 ≤ countCalls evs ∧
        (i + countCalls evs ≤ times + 1 →
          (countSleeps evs : Int) = max 0 (min (i + countCalls evs - 1) (times - 1) - i)
          ∧ (∀ e, e ∈ evs → e = Event.call ∨ e = Event.sleep delay)
          ∧ (∃ pre, evs = pre ++ [Event.call])
          ∧ (res ≠ none → i + countCalls evs = times + 1)) := by
  have hmaxv : times ≤ 9223372036854775807 := hmax
  have hwt : wrapInt (times - 1) = times - 1 :=
    wrapInt_of_mem_range _ (by simp only [minInt]; omega) (by simp only [maxInt]; omega)
  induction fuel with
  | zero =>
    intro i err w res w1 _ _ h
    simp [MultipleTimesWithDelay.loop] at h
  | succ fuel ih =>
    intro i err w res w1 hi0 hit h
    simp only [MultipleTimesWithDelay.loop, hit, if_true, invoke_eq, hwt] at h
    cases h0 : outcome f w.st 0 with
    | none =>
      simp only [h0, Option.some.injEq, Prod.mk.injEq] at h
      obtain ⟨rfl, rfl⟩ := h
      refine ⟨[Event.call], rfl, by simp [countCalls_call], fun _ => ⟨?_, ?_, ⟨[], rfl⟩, ?_⟩⟩
      · rw [countCalls_call, countSleeps_call]
        push_cast
        omega
      · intro e he
        left
        simpa using he
      · intro hne
        exact absurd rfl hne
    | some e =>
      simp only [h0] at h
      by_cases hlt : i < times
      · have hwi : wrapInt (i + 1) = i + 1 :=
          wrapInt_of_mem_range _ (by simp only [minInt]; omega) (by simp only [maxInt]; omega)
        rw [hwi] at h
        obtain ⟨evs, hlog, hc, hrest⟩ := ih (i + 1) _ _ _ _ (by omega) (by omega) h
        by_cases hs : i < times - 1
        · rw [if_pos ⟨hs, hd⟩, doSleep_log, runCalls_one_log] at hlog
          refine ⟨[Event.call] ++ ([Event.sleep delay] ++ evs), by simp [hlog], ?_, fun hb => ?_⟩
          · rw [countCalls_append, countCalls_call]
            omega
          · simp only [countCalls_append, countSleeps_append, countCalls_call, countSleeps_call,
              countCalls_sleep, countSleeps_sleep] at hb ⊢
            push_cast at hb ⊢
            obtain ⟨hsl, hall, ⟨pre, hpre⟩, hres⟩ := hrest (by omega)
            refine ⟨by omega, ?_, ⟨[Event.call] ++ ([Event.sleep delay] ++ pre), by simp [hpre]⟩,
              fun hne => by have := hres hne; omega⟩
            intro ev hev
            simp only [List.mem_append, List.mem_singleton] at hev
            rcases hev with rfl | rfl | hev
            · exact Or.inl rfl
            · exact Or.inr rfl
            · exact hall ev hev
        · have hns : ¬ (i < times - 1 ∧ delay > 0) := fun hh => hs hh.1
          rw [if_neg hns, runCalls_one_log] at hlog
          refine ⟨[Event.call] ++ evs, by simp [hlog], ?_, fun hb => ?_⟩
          · rw [countCalls_append, countCalls_call]
            omega
          · simp only [countCalls_append, countSleeps_append, countCalls_call,
              countSleeps_call] at hb ⊢
            push_cast at hb ⊢
            obtain ⟨hsl, hall, ⟨pre, hpre⟩, hres⟩ := hrest (by omega)
            refine ⟨by omega, ?_, ⟨[Event.call] ++ pre, by simp [hpre]⟩,
              fun hne => by have := hres hne; omega⟩
            intro ev hev
            simp only [List.mem_append, List.mem_singleton] at hev
            rcases hev with rfl | hev
            · exact Or.inl rfl
            · exact hall ev hev
      · have hieq : i = times := by omega
        subst hieq
        have hns : ¬ (i < i - 1 ∧ delay > 0) := fun hh => by omega
        rw [if_neg hns] at h
        by_cases hm : i < maxInt
        · have hwi : wrapInt (i + 1) = i + 1 :=
            wrapInt_of_mem_range _ (by simp only [minInt]; omega)
              (by simp only [maxInt] at hm ⊢; omega)
          rw [hwi] at h
          cases fuel with
          | zero => simp [MultipleTimesWithDelay.loop] at h
          | succ fuel =>
            have hgt : ¬ (i + 1 ≤ i) := by omega
            simp only [MultipleTimesWithDelay.loop, hgt, if_false, Option.some.injEq,
              Prod.mk.injEq] at h
            obtain ⟨rfl, rfl⟩ := h
            refine ⟨[Event.call], rfl, by simp [countCalls_call],
              fun _ => ⟨?_, ?_, ⟨[], rfl⟩, ?_⟩⟩
            · rw [countCalls_call, countSleeps_call]
              push_cast
              omega
            · intro ev hev
              left
              simpa using hev
            · intro _
              rw [countCalls_call]
              push_cast
              omega
        · have himax : i = maxInt := le_antisymm hmax (not_lt.mp hm)
          obtain ⟨evs, hlog, hc⟩ := MultipleTimesWithDelay.loop_extends rt i delay f fuel _ _ _ _ _ h
          have hc1 : 1 ≤ countCalls evs := hc (by rw [himax]; exact wrapInt_le_maxInt _)
          rw [runCalls_one_log] at hlog
          refine ⟨[Event.call] ++ evs, by simp [hlog], ?_, fun hb => ?_⟩
          · rw [countCalls_append, countCalls_call]
            omega
          · rw [countCalls_append, countCalls_call] at hb
            push_cast at hb
            omega

/-- With `times` below `maxInt` the loop of `MultipleTimesWithDelay` returns once the
fuel covers the rounds still to go. -/
theorem MultipleTimesWithDelay.loop_returns {σ ε : Type} (rt : Runtime σ) (times delay : Int)
    (f : Op σ ε) (hmax : times < maxInt) (fuel : Nat) :
    ∀ (i : Int) (err : Option ε) (w : World σ),
      0 ≤ i → i ≤ times + 1 → times + 2 - i ≤ fuel →
      (MultipleTimesWithDelay.loop rt times delay f fuel i err w).isSome = true := by
  induction fuel with
  | zero =>
    intro i err w _ hi hf
    push_cast at hf
    omega
  | succ fuel ih =>
    intro i err w hi0 hi hf
    by_cases hit : i ≤ times
    · simp only [MultipleTimesWithDelay.loop, hit, if_true, invoke_eq]
      cases h0 : outcome f w.st 0 with
      | none => rfl
      | some e =>
        have hwi : wrapInt (i + 1) = i + 1 :=
          wrapInt_of_mem_range _ (by simp only [minInt]; omega)
            (by simp only [maxInt] at hmax ⊢; omega)
        simp only [hwi]
        exact ih (i + 1) _ _ (by omega) (by omega) (by push_cast at hf ⊢; omega)
    · simp only [MultipleTimesWithDelay.loop, hit, if_false, Option.isSome_some]

/-- C8: for every `int` value `N ≥ 1`, every `delay > 0` and every operation, take a call
of `MultipleTimesWithDelay N delay f` that returns, let `evs` be what it appended to the
log and `K + 1` the number of invocations in it, so that `K` attempts failed before the
final one, with `K ≤ N`. Then either the final attempt succeeded or `K = N` (all `N + 1`
attempts failed); the call slept exactly `min K (N - 1)` times; every sleep lasted `delay`;
and the last action of the call is an invocation, not a sleep. Moreover for `N < maxInt`
the call does return, as soon as the fuel covers `N + 2` loop rounds. -/
theorem MultipleTimesWithDelay_sleep_count {σ ε : Type} (rt : Runtime σ) (N delay : Int)
    (f : Op σ ε) (w w1 : World σ) (fuel : Nat) (res : Option ε) (evs : List Event) (K : Nat)
    (hN1 : 1 ≤ N) (hN : N ≤ maxInt) (hd : 0 < delay)
    (hrun : MultipleTimesWithDelay rt N delay f fuel w = some (res, w1))
    (hlog : w1.log = w.log ++ evs)
    (hK : countCalls evs = K + 1) (hKN : (K : Int) ≤ N) :
    (res = none ∨ (K : Int) = N)
      ∧ (countSleeps evs : Int) = min (K : Int) (N - 1)
      ∧ (∀ e, e ∈ evs → e = Event.call ∨ e = Event.sleep delay)
      ∧ evs.getLast? = some Event.call
      ∧ (N < maxInt → ∀ fuel2 : Nat, N + 2 ≤ (fuel2 : Int) →
          (MultipleTimesWithDelay rt N delay f fuel2 w).isSome = true) := by
  obtain ⟨evs2, hlog2, -, hrest⟩ :=
    MultipleTimesWithDelay.loop_sleeps rt N delay f hN1 hN hd fuel 0 none w res w1
      (le_refl 0) (by omega) hrun
  have hevs : evs2 = evs := List.append_cancel_left (hlog2.symm.trans hlog)
  subst hevs
  rw [hK] at hrest
  obtain ⟨hsl, hall, ⟨pre, hpre⟩, hres⟩ := hrest (by push_cast; omega)
  push_cast at hsl hres
  refine ⟨?_, by omega, hall, by rw [hpre, List.getLast?_concat], ?_⟩
  · by_cases hr : res = none
    · exact Or.inl hr
    · right
      have := hres hr
      omega
  · intro hlt fuel2 hf
    exact MultipleTimesWithDelay.loop_returns rt N delay f hlt fuel2 0 none w (le_refl 0)
      (by omega) (by omega)

/-- Witness for C8: `MultipleTimesWithDelay(2, 5ns, f)` with `f` failing on all three
attempts: two failed attempts precede the final one and the call sleeps `min 2 1 = 1`
time, after the first attempt only. -/
theorem MultipleTimesWithDelay_sleep_count_witness :
    ((some 3 : Option Nat) = none ∨ ((2 : Nat) : Int) = 2)
      ∧ (countSleeps [Event.call, Event.sleep 5, Event.call, Event.call] : Int)
          = min ((2 : Nat) : Int) (2 - 1)
      ∧ (∀ e, e ∈ [Event.call, Event.sleep 5, Event.call, Event.call] →
          e = Event.call ∨ e = Event.sleep 5)
      ∧ [Event.call, Event.sleep 5, Event.call, Event.call].getLast? = some Event.call
      ∧ ((2 : Int) < maxInt → ∀ fuel2 : Nat, (2 : Int) + 2 ≤ (fuel2 : Int) →
          (MultipleTimesWithDelay counterRuntime 2 5 alwaysFail fuel2 ⟨0, []⟩).isSome = true) :=
  MultipleTimesWithDelay_sleep_count counterRuntime 2 5 alwaysFail ⟨0, []⟩
    ⟨3, [Event.call, Event.sleep 5, Event.call, Event.call]⟩ 4 (some 3)
    [Event.call, Event.sleep 5, Event.call, Event.call] 2
    (by decide) (by decide) (by decide) (by rfl) (by rfl) (by rfl) (by decide)

/-! ## The small-delay presets -/

/-- C9 does not hold of the code: `OnceWithSmallDelay` with an operation that fails on
its first invocation invokes it a second time without any sleep in between; and in
`TwiceWithSmallDelay` and `ThriceWithSmallDelay` no sleep precedes the last retry. -/
theorem WithSmallDelay_last_retry_without_sleep :
    OnceWithSmallDelay counterRuntime (failFirst 1) 2 ⟨0, []⟩
        = some (none, ⟨2, [Event.call, Event.call]⟩)
      ∧ TwiceWithSmallDelay counterRuntime (failFirst 2) 3 ⟨0, []⟩
        = some (none, ⟨3, [Event.call, Event.sleep 100000000, Event.call, Event.call]⟩)
      ∧ ThriceWithSmallDelay counterRuntime (failFirst 3) 4 ⟨0, []⟩
        = some (none, ⟨4, [Event.call, Event.sleep 100000000, Event.call,
            Event.sleep 100000000, Event.call, Event.call]⟩) :=
  ⟨rfl, rfl, rfl⟩

/-! ## Timeout -/

/-- The loop of `UntilSuccessOrTimeout` under failing invocations: it stops after the
first invocation at whose end the elapsed time exceeds the bound. -/
theorem UntilSuccessOrTimeout.loop_times_out {σ ε : Type} (rt : Runtime σ) (ErrTimeout : ε)
    (timeout start : Int) (f : Op σ ε) (m : Nat) :
    ∀ (w : World σ) (fuel : Nat),
      (∀ i, i ≤ m → outcome f w.st i ≠ none) →
      (∀ k, k < m → ¬ Since rt start (stateAfter f w.st (k + 1)) > timeout) →
      Since rt start (stateAfter f w.st (m + 1)) > timeout →
      m + 1 ≤ fuel →
      UntilSuccessOrTimeout.loop rt ErrTimeout timeout start f fuel w
        = some (some ErrTimeout, runCalls f w (m + 1)) := by
  induction m with
  | zero =>
    intro w fuel hfail _ hover hfuel
    obtain ⟨n, rfl⟩ : ∃ n, fuel = n + 1 := ⟨fuel - 1, by omega⟩
    obtain ⟨e, h0⟩ : ∃ e, outcome f w.st 0 = some e :=
      Option.ne_none_iff_exists'.mp (hfail 0 (le_refl 0))
    have hover1 : Since rt start (runCalls f w 1).st > timeout := hover
    simp only [UntilSuccessOrTimeout.loop, invoke_eq, h0, hover1, if_true]
  | succ m ih =>
    intro w fuel hfail hunder hover hfuel
    obtain ⟨n, rfl⟩ : ∃ n, fuel = n + 1 := ⟨fuel - 1, by omega⟩
    obtain ⟨e, h0⟩ : ∃ e, outcome f w.st 0 = some e :=
      Option.ne_none_iff_exists'.mp (hfail 0 (by omega))
    have hunder1 : ¬ Since rt start (runCalls f w 1).st > timeout := hunder 0 (by omega)
    simp only [UntilSuccessOrTimeout.loop, invoke_eq, h0, hunder1, if_false]
    rw [ih (runCalls f w 1) n ?_ ?_ ?_ (by omega), runCalls_shift]
    · intro i hi
      rw [outcome_runCalls_one]
      exact hfail (i + 1) (by omega)
    · intro k hk
      rw [stateAfter_runCalls_one]
      exact hunder (k + 1) (by omega)
    · rw [stateAfter_runCalls_one]
      exact hover

/-- C10: the clock is read on entry (`start`) and after each failed attempt. If the
first `j` successive invocations of `f` fail (in particular if `f` always fails) and the
elapsed time read after attempt `j ≥ 1` is the first reading strictly greater than
`timeout`, then `UntilSuccessOrTimeout` returns (any fuel of at least `j` loop rounds
suffices) the sentinel `ErrTimeout`, whatever errors `f` produced, and `f` has been
invoked exactly `j` times. -/
theorem UntilSuccessOrTimeout_times_out {σ ε : Type} (rt : Runtime σ) (ErrTimeout : ε)
    (ctx : Context σ ε) (timeout : Int) (f : Op σ ε) (j : Nat) (w : World σ) (fuel : Nat)
    (hj : 1 ≤ j)
    (hfail : ∀ i, i < j → outcome f w.st i ≠ none)
    (hunder : ∀ k, 1 ≤ k → k < j →
      ¬ Since rt (rt.now w.st) (stateAfter f w.st k) > timeout)
    (hover : Since rt (rt.now w.st) (stateAfter f w.st j) > timeout)
    (hfuel : j ≤ fuel) :
    UntilSuccessOrTimeout rt ErrTimeout ctx timeout f fuel w
      = some (some ErrTimeout, runCalls f w j) := by
  obtain ⟨m, rfl⟩ : ∃ m, j = m + 1 := ⟨j - 1, by omega⟩
  exact UntilSuccessOrTimeout.loop_times_out rt ErrTimeout timeout (rt.now w.st) f m w fuel
    (fun i hi => hfail i (by omega)) (fun k hk => hunder (k + 1) (by omega) (by omega))
    hover hfuel

/-- Witness for C10: an operation that always fails, one nanosecond per invocation, and a
bound of 2 ns: the reading after the third attempt is the first above the bound, and the
call returns the sentinel (here the value 0) after 3 invocations, not the error 3 of the
last attempt. -/
theorem UntilSuccessOrTimeout_times_out_witness :
    UntilSuccessOrTimeout counterRuntime 0 neverContext 2 alwaysFail 3 ⟨0, []⟩
      = some (some 0, runCalls alwaysFail ⟨0, []⟩ 3) :=
  UntilSuccessOrTimeout_times_out counterRuntime 0 neverContext 2 alwaysFail 3 ⟨0, []⟩ 3
    (by decide)
    (by intro i hi; simp [outcome, alwaysFail])
    (by intro k h1 hk; interval_cases k <;> decide)
    (by decide) (by decide)

/-! ## `UntilErrorOrTimeout` -/

/-- The loop of `UntilErrorOrTimeout` under succeeding invocations: it stops after the
first invocation at whose end the elapsed time exceeds the bound. -/
theorem UntilErrorOrTimeout_loop_times_out {σ ε : Type} (rt : Runtime σ) (ErrTimeout : ε)
    (timeout start : Int) (f : Op σ ε) (m : Nat) :
    ∀ (w : World σ) (fuel : Nat),
      (∀ i, i ≤ m → outcome f w.st i = none) →
      (∀ k, k < m → ¬ Since rt start (stateAfter f w.st (k + 1)) > timeout) →
      Since rt start (stateAfter f w.st (m + 1)) > timeout →
      m + 1 ≤ fuel →
      UntilErrorOrTimeout.loop rt ErrTimeout timeout start f fuel w
        = some (some ErrTimeout, runCalls f w (m + 1)) := by
  induction m with
  | zero =>
    intro w fuel hok _ hover hfuel
    obtain ⟨n, rfl⟩ : ∃ n, fuel = n + 1 := ⟨fuel - 1, by omega⟩
    have h0 : outcome f w.st 0 = none := hok 0 (le_refl 0)
    have hover1 : Since rt start (runCalls f w 1).st > timeout := hover
    simp only [UntilErrorOrTimeout.loop, invoke_eq, h0, hover1, if_true]
  | succ m ih =>
    intro w fuel hok hunder hover hfuel
    obtain ⟨n, rfl⟩ : ∃ n, fuel = n + 1 := ⟨fuel - 1, by omega⟩
    have h0 : outcome f w.st 0 = none := hok 0 (by omega)
    have hunder1 : ¬ Since rt start (runCalls f w 1).st > timeout := hunder 0 (by omega)
    simp only [UntilErrorOrTimeout.loop, invoke_eq, h0, hunder1, if_false]
    rw [ih (runCalls f w 1) n ?_ ?_ ?_ (by omega), runCalls_shift]
    · intro i hi
      rw [outcome_runCalls_one]
      exact hok (i + 1) (by omega)
    · intro k hk
      rw [stateAfter_runCalls_one]
      exact hunder (k + 1) (by omega)
    · rw [stateAfter_runCalls_one]
      exact hover

/-- C11 fails on the code: `UntilErrorOrTimeout` stops at the first failure. With an
operation that always fails and a bound of 0 ns, which the time elapsed after the first
attempt (1 ns) exceeds, the call returns the error 1 of the operation after one
invocation, whatever the fuel, and not the sentinel (here the value 0). -/
theorem UntilErrorOrTimeout_always_failing_returns_op_error :
    (∀ i, outcome alwaysFail 0 i ≠ none)
      ∧ Since counterRuntime (counterRuntime.now 0) (stateAfter alwaysFail 0 1) > 0
      ∧ (∀ fuel, UntilErrorOrTimeout counterRuntime 0 0 alwaysFail (fuel + 1) ⟨0, []⟩
          = some (some 1, ⟨1, [Event.call]⟩))
      ∧ (some 1 : Option Nat) ≠ some 0 := by
  refine ⟨by intro i; simp [outcome, alwaysFail], by decide, fun fuel => rfl, by decide⟩

/-- C11, as the code has it: with an operation whose first `j` successive invocations
succeed (in particular one that always succeeds), if the elapsed time read after attempt
`j ≥ 1` is the first reading strictly greater than `timeout`, then `UntilErrorOrTimeout`
returns (any fuel of at least `j` loop rounds suffices) the sentinel `ErrTimeout` after
exactly `j` invocations. -/
theorem UntilErrorOrTimeout_times_out {σ ε : Type} (rt : Runtime σ) (ErrTimeout : ε)
    (timeout : Int) (f : Op σ ε) (j : Nat) (w : World σ) (fuel : Nat)
    (hj : 1 ≤ j)
    (hok : ∀ i, i < j → outcome f w.st i = none)
    (hunder : ∀ k, 1 ≤ k → k < j →
      ¬ Since rt (rt.now w.st) (stateAfter f w.st k) > timeout)
    (hover : Since rt (rt.now w.st) (stateAfter f w.st j) > timeout)
    (hfuel : j ≤ fuel) :
    UntilErrorOrTimeout rt ErrTimeout timeout f fuel w
      = some (some ErrTimeout, runCalls f w j) := by
  obtain ⟨m, rfl⟩ : ∃ m, j = m + 1 := ⟨j - 1, by omega⟩
  exact UntilErrorOrTimeout_loop_times_out rt ErrTimeout timeout (rt.now w.st) f m w fuel
    (fun i hi => hok i (by omega)) (fun k hk => hunder (k + 1) (by omega) (by omega))
    hover hfuel

/-- Witness for C11: an operation that succeeds on its first ten invocations, one
nanosecond each, and a bound of 2 ns: the sentinel (here the value 0) comes back after 3
invocations. -/
theorem UntilErrorOrTimeout_times_out_witness :
    UntilErrorOrTimeout counterRuntime 0 2 (succeedFirst 10) 3 ⟨0, []⟩
      = some (some 0, runCalls (succeedFirst 10) ⟨0, []⟩ 3) :=
  UntilErrorOrTimeout_times_out counterRuntime 0 2 (succeedFirst 10) 3 ⟨0, []⟩ 3
    (by decide)
    (by intro i hi; interval_cases i <;> rfl)
    (by intro k h1 hk; interval_cases k <;> decide)
    (by decide) (by decide)

/-! ## The timeout variants attempt before they look at the clock -/

/-- A returning run of the loop of `UntilSuccessOrTimeout` has invoked the operation. -/
theorem UntilSuccessOrTimeout_loop_extends {σ ε : Type} (rt : Runtime σ) (ErrTimeout : ε)
    (timeout start : Int) (f : Op σ ε) (fuel : Nat) :
    ∀ (w : World σ) (res : Option ε) (w1 : World σ),
      UntilSuccessOrTimeout.loop rt ErrTimeout timeout start f fuel w = some (res, w1) →
      ∃ evs, w1.log = w.log ++ evs ∧ 1 ≤ countCalls evs := by
  induction fuel with
  | zero =>
    intro w res w1 h
    simp [UntilSuccessOrTimeout.loop] at h
  | succ fuel ih =>
    intro w res w1 h
    simp only [UntilSuccessOrTimeout.loop, invoke_eq] at h
    cases h0 : outcome f w.st 0 with
    | none =>
      simp only [h0, Option.some.injEq, Prod.mk.injEq] at h
      obtain ⟨-, rfl⟩ := h
      exact ⟨[Event.call], rfl, by simp [countCalls_call]⟩
    | some e =>
      simp only [h0] at h
      by_cases hover : Since rt start (runCalls f w 1).st > timeout
      · simp only [hover, if_true, Option.some.injEq, Prod.mk.injEq] at h
        obtain ⟨-, rfl⟩ := h
        exact ⟨[Event.call], rfl, by simp [countCalls_call]⟩
      · simp only [hover, if_false] at h
        obtain ⟨evs, hlog, -⟩ := ih _ _ _ h
        rw [runCalls_one_log] at hlog
        refine ⟨[Event.call] ++ evs, by simp [hlog], ?_⟩
        rw [countCalls_append, countCalls_call]
        omega

/-- A returning run of the loop of `UntilErrorOrTimeout` has invoked the operation. -/
theorem UntilErrorOrTimeout_loop_extends {σ ε : Type} (rt : Runtime σ) (ErrTimeout : ε)
    (timeout start : Int) (f : Op σ ε) (fuel : Nat) :
    ∀ (w : World σ) (res : Option ε) (w1 : World σ),
      UntilErrorOrTimeout.loop rt ErrTimeout timeout start f fuel w = some (res, w1) →
      ∃ evs, w1.log = w.log ++ evs ∧ 1 ≤ countCalls evs := by
  induction fuel with
  | zero =>
    intro w res w1 h
    simp [UntilErrorOrTimeout.loop] at h
  | succ fuel ih =>
    intro w res w1 h
    simp only [UntilErrorOrTimeout.loop, invoke_eq] at h
    cases h0 : outcome f w.st 0 with
    | some e =>
      simp only [h0, Option.some.injEq, Prod.mk.injEq] at h
      obtain ⟨-, rfl⟩ := h
      exact ⟨[Event.call], rfl, by simp [countCalls_call]⟩
    | none =>
      simp only [h0] at h
      by_cases hover : Since rt start (runCalls f w 1).st > timeout
      · simp only [hover, if_true, Option.some.injEq, Prod.mk.injEq] at h
        obtain ⟨-, rfl⟩ := h
        exact ⟨[Event.call], rfl, by simp [countCalls_call]⟩
      · simp only [hover, if_false] at h
        obtain ⟨evs, hlog, -⟩ := ih _ _ _ h
        rw [runCalls_one_log] at hlog
        refine ⟨[Event.call] ++ evs, by simp [hlog], ?_⟩
        rw [countCalls_append, countCalls_call]
        omega

/-- C13: for every bound `timeout` (zero and negative included) and every clock, every
call of `UntilSuccessOrTimeout` or `UntilErrorOrTimeout` that returns has invoked the
operation at least once; and if the first invocation succeeds, `UntilSuccessOrTimeout`
returns `nil` after exactly one invocation, and if the first invocation fails with `e`,
`UntilErrorOrTimeout` returns `e` after exactly one invocation: one loop round of fuel
suffices and the clock is not consulted, so the sentinel is not returned even when the
bound was exceeded while the attempt ran. -/
theorem timeout_variants_attempt_first {σ ε : Type} (rt : Runtime σ) (ErrTimeout : ε)
    (ctx : Context σ ε) (timeout : Int) (f : Op σ ε) (w : World σ) (fuel : Nat) :
    (∀ res w1, UntilSuccessOrTimeout rt ErrTimeout ctx timeout f fuel w = some (res, w1) →
        ∃ evs, w1.log = w.log ++ evs ∧ 1 ≤ countCalls evs)
      ∧ (∀ res w1, UntilErrorOrTimeout rt ErrTimeout timeout f fuel w = some (res, w1) →
        ∃ evs, w1.log = w.log ++ evs ∧ 1 ≤ countCalls evs)
      ∧ (outcome f w.st 0 = none →
        UntilSuccessOrTimeout rt ErrTimeout ctx timeout f (fuel + 1) w
          = some (none, runCalls f w 1))
      ∧ (∀ e, outcome f w.st 0 = some e →
        UntilErrorOrTimeout rt ErrTimeout timeout f (fuel + 1) w
          = some (some e, runCalls f w 1)) := by
  refine ⟨?_, ?_, ?_, ?_⟩
  · intro res w1 h
    exact UntilSuccessOrTimeout_loop_extends rt ErrTimeout timeout _ f fuel w res w1 h
  · intro res w1 h
    exact UntilErrorOrTimeout_loop_extends rt ErrTimeout timeout _ f fuel w res w1 h
  · intro h0
    simp only [UntilSuccessOrTimeout, UntilSuccessOrTimeout.loop, invoke_eq, h0]
  · intro e h0
    simp only [UntilErrorOrTimeout, UntilErrorOrTimeout.loop, invoke_eq, h0]

/-- Witness for C13: with a bound of -1 ns, exceeded from the start, an operation that
succeeds at once gives `nil` and an operation that fails at once gives its own error 1,
each after one invocation; the sentinel would be the value 0. -/
theorem timeout_variants_attempt_first_witness :
    UntilSuccessOrTimeout counterRuntime 0 neverContext (-1) (failFirst 0) (0 + 1) ⟨0, []⟩
        = some (none, ⟨1, [Event.call]⟩)
      ∧ UntilErrorOrTimeout counterRuntime 0 (-1) alwaysFail (0 + 1) ⟨0, []⟩
        = some (some 1, ⟨1, [Event.call]⟩) :=
  ⟨(timeout_variants_attempt_first counterRuntime 0 neverContext (-1) (failFirst 0)
      ⟨0, []⟩ 0).2.2.1 rfl,
    (timeout_variants_attempt_first counterRuntime 0 neverContext (-1) alwaysFail
      ⟨0, []⟩ 0).2.2.2 1 rfl⟩

/-- C20: the context argument of `UntilSuccessOrTimeout` has no influence: for any two
contexts and the same runtime, sentinel, bound, operation, fuel and world the two calls
are the same computation, hence return the same result and the same world (same
invocations). In particular with a context that has fired before the call, an operation
that succeeds at once is still invoked and the call returns `nil` after one invocation. -/
theorem UntilSuccessOrTimeout_ignores_context {σ ε : Type} (rt : Runtime σ) (ErrTimeout : ε)
    (ctx1 ctx2 : Context σ ε) (timeout : Int) (f : Op σ ε) (w : World σ) (fuel : Nat) :
    UntilSuccessOrTimeout rt ErrTimeout ctx1 timeout f fuel w
        = UntilSuccessOrTimeout rt ErrTimeout ctx2 timeout f fuel w
      ∧ (ctx1.done w.st = true → outcome f w.st 0 = none →
          UntilSuccessOrTimeout rt ErrTimeout ctx1 timeout f (fuel + 1) w
            = some (none, runCalls f w 1)) := by
  refine ⟨rfl, fun _ h0 => ?_⟩
  simp only [UntilSuccessOrTimeout, UntilSuccessOrTimeout.loop, invoke_eq, h0]

/-- Witness for C20: a context cancelled from the start and one never cancelled, an
operation that fails twice and then succeeds, and a bound of 10 ns: both calls return
`nil` after 3 invocations. -/
theorem UntilSuccessOrTimeout_ignores_context_witness :
    UntilSuccessOrTimeout counterRuntime 0 firedContext 10 (failFirst 2) 3 ⟨0, []⟩
        = some (none, ⟨3, [Event.call, Event.call, Event.call]⟩)
      ∧ UntilSuccessOrTimeout counterRuntime 0 neverContext 10 (failFirst 2) 3 ⟨0, []⟩
        = some (none, ⟨3, [Event.call, Event.call, Event.call]⟩) :=
  ⟨rfl, ((UntilSuccessOrTimeout_ignores_context counterRuntime 0 firedContext neverContext 10
      (failFirst 2) ⟨0, []⟩ 3).1).symm.trans rfl⟩

/-! ## `MultipleTimes` and `MultipleTimesWithDelay` side by side -/

/-- With a delay that is not positive `MultipleTimesWithDelay` never sleeps: its loop is
the loop of `MultipleTimes`. -/
theorem MultipleTimesWithDelay.loop_eq_of_delay_nonpos {σ ε : Type} (rt : Runtime σ)
    (times delay : Int) (f : Op σ ε) (hd : delay ≤ 0) (fuel : Nat) :
    ∀ (i : Int) (err : Option ε) (w : World σ),
      MultipleTimesWithDelay.loop rt times delay f fuel i err w
        = MultipleTimes.loop times f fuel i err w := by
  induction fuel with
  | zero => intro i err w; rfl
  | succ fuel ih =>
    intro i err w
    have hns : ¬ (i < wrapInt (times - 1) ∧ delay > 0) := fun hh => by omega
    simp only [MultipleTimesWithDelay.loop, MultipleTimes.loop, if_neg hns, ih]

/-- A `nil` result of the loop of `MultipleTimesWithDelay` comes from an invocation that
returned `nil`, unless the loop was entered with the counter beyond `times` and `nil` in
the named result. -/
theorem MultipleTimesWithDelay.loop_nil {σ ε : Type} (rt : Runtime σ) (times delay : Int)
    (f : Op σ ε) (fuel : Nat) :
    ∀ (i : Int) (err : Option ε) (w w1 : World σ),
      MultipleTimesWithDelay.loop rt times delay f fuel i err w = some (none, w1) →
      (err = none ∧ ¬ i ≤ times ∧ w1 = w) ∨ ∃ w0, invoke f w0 = (none, w1) := by
  induction fuel with
  | zero =>
    intro i err w w1 h
    simp [MultipleTimesWithDelay.loop] at h
  | succ fuel ih =>
    intro i err w w1 h
    by_cases hit : i ≤ times
    · simp only [MultipleTimesWithDelay.loop, hit, if_true] at h
      cases h0 : (invoke f w).1 with
      | none =>
        right
        refine ⟨w, ?_⟩
        have hinv : invoke f w = (none, (invoke f w).2) := by rw [← h0]
        rw [hinv] at h
        simp only [Option.some.injEq, Prod.mk.injEq, true_and] at h
        rw [hinv, h]
      | some e =>
        have hinv : invoke f w = (some e, (invoke f w).2) := by rw [← h0]
        rw [hinv] at h
        rcases ih _ _ _ _ h with ⟨hne, -, -⟩ | hsucc
        · exact Option.noConfusion hne
        · exact Or.inr hsucc
    · simp only [MultipleTimesWithDelay.loop, hit, if_false, Option.some.injEq,
        Prod.mk.injEq] at h
      exact Or.inl ⟨h.1, hit, h.2.symm⟩

/-- C12 fails for negative `n`: with `n = -1` the loop body never runs, and both
`MultipleTimes` and `MultipleTimesWithDelay` return `nil` without a single invocation
(state and log untouched), although the operation would fail on every invocation. -/
theorem MultipleTimes_negative_returns_nil_without_attempt :
    (∀ s, (alwaysFail s).1 ≠ none)
      ∧ (∀ fuel, MultipleTimes (-1) alwaysFail (fuel + 1) ⟨0, []⟩ = some (none, ⟨0, []⟩))
      ∧ (∀ fuel, MultipleTimesWithDelay counterRuntime (-1) 5 alwaysFail (fuel + 1) ⟨0, []⟩
          = some (none, ⟨0, []⟩)) :=
  ⟨by intro s; simp [alwaysFail], fun _ => rfl, fun _ => rfl⟩

/-- C12, as the code has it: for every `n ≥ 0`, every delay and every operation, a call
of `MultipleTimes n f` or of `MultipleTimesWithDelay n delay f` that returns has invoked
the operation at least once, and when its result is `nil` the world it leaves is the one
left by an invocation that returned `nil`. For `n < maxInt` both calls do return, as soon
as the fuel covers `n + 2` loop rounds. -/
theorem MultipleTimes_attempts_at_least_once {σ ε : Type} (rt : Runtime σ) (n delay : Int)
    (f : Op σ ε) (w : World σ) (fuel : Nat)
    (hn : 0 ≤ n) :
    (∀ res w1, MultipleTimes n f fuel w = some (res, w1) →
        (∃ evs, w1.log = w.log ++ evs ∧ 1 ≤ countCalls evs)
          ∧ (res = none → ∃ w0, invoke f w0 = (none, w1)))
      ∧ (∀ res w1, MultipleTimesWithDelay rt n delay f fuel w = some (res, w1) →
        (∃ evs, w1.log = w.log ++ evs ∧ 1 ≤ countCalls evs)
          ∧ (res = none → ∃ w0, invoke f w0 = (none, w1)))
      ∧ (n < maxInt → n + 2 ≤ (fuel : Int) →
          (MultipleTimes n f fuel w).isSome = true
            ∧ (MultipleTimesWithDelay rt n delay f fuel w).isSome = true) := by
  have key : ∀ (d : Int) (res : Option ε) (w1 : World σ),
      MultipleTimesWithDelay rt n d f fuel w = some (res, w1) →
        (∃ evs, w1.log = w.log ++ evs ∧ 1 ≤ countCalls evs)
          ∧ (res = none → ∃ w0, invoke f w0 = (none, w1)) := by
    intro d res w1 h
    obtain ⟨evs, hlog, hc⟩ := MultipleTimesWithDelay.loop_extends rt n d f fuel 0 none w res w1 h
    refine ⟨⟨evs, hlog, hc hn⟩, ?_⟩
    intro hres
    subst hres
    rcases MultipleTimesWithDelay.loop_nil rt n d f fuel 0 none w w1 h with ⟨-, hgt, -⟩ | hsucc
    · exact absurd hn hgt
    · exact hsucc
  have heq : MultipleTimesWithDelay rt n 0 f fuel w = MultipleTimes n f fuel w :=
    MultipleTimesWithDelay.loop_eq_of_delay_nonpos rt n 0 f (le_refl 0) fuel 0 none w
  refine ⟨?_, key delay, ?_⟩
  · intro res w1 h
    exact key 0 res w1 (heq.trans h)
  · intro hlt hf
    refine ⟨?_, ?_⟩
    · rw [← heq]
      exact MultipleTimesWithDelay.loop_returns rt n 0 f hlt fuel 0 none w (le_refl 0)
        (by omega) (by omega)
    · exact MultipleTimesWithDelay.loop_returns rt n delay f hlt fuel 0 none w (le_refl 0)
        (by omega) (by omega)

/-- Witness for C12: `MultipleTimes(0, f)` with `f` always failing returns the error of
its single invocation; the run has one call in its log. -/
theorem MultipleTimes_attempts_at_least_once_witness :
    (∃ evs, [Event.call] = ([] : List Event) ++ evs ∧ 1 ≤ countCalls evs)
      ∧ ((some 1 : Option Nat) = none →
          ∃ w0, invoke alwaysFail w0 = (none, (⟨1, [Event.call]⟩ : World Nat))) :=
  (MultipleTimes_attempts_at_least_once counterRuntime 0 5 alwaysFail ⟨0, []⟩ 2
    (by decide)).1 (some 1) ⟨1, [Event.call]⟩ rfl

/-! ## `Once`, `Twice`, `Thrice` -/

/-- Every returning run of the loop of `MultipleTimes` with `times < maxInt`: it makes
`k + 1` successive invocations with the counter ending within `times`, all but the last
of them failed, the result is what the last one returned, and an error is only returned
when the counter has reached `times`. -/
theorem MultipleTimes.loop_run {σ ε : Type} (times : Int) (f : Op σ ε)
    (hmax : times < maxInt) (fuel : Nat) :
    ∀ (i : Int) (err : Option ε) (w : World σ) (res : Option ε) (w1 : World σ),
      0 ≤ i → i ≤ times →
      MultipleTimes.loop times f fuel i err w = some (res, w1) →
      ∃ k : Nat, i + k ≤ times ∧ w1 = runCalls f w (k + 1)
        ∧ (∀ j, j < k → outcome f w.st j ≠ none)
        ∧ res = outcome f w.st k
        ∧ (res ≠ none → i + k = times) := by
  have hmaxv : times < 9223372036854775807 := hmax
  induction fuel with
  | zero =>
    intro i err w res w1 _ _ h
    simp [MultipleTimes.loop] at h
  | succ fuel ih =>
    intro i err w res w1 hi0 hit h
    simp only [MultipleTimes.loop, hit, if_true, invoke_eq] at h
    cases h0 : outcome f w.st 0 with
    | none =>
      simp only [h0, Option.some.injEq, Prod.mk.injEq] at h
      obtain ⟨rfl, rfl⟩ := h
      exact ⟨0, by simpa using hit, rfl, fun j hj => absurd hj (Nat.not_lt_zero j), h0.symm,
        fun hne => absurd rfl hne⟩
    | some e =>
      have hwi : wrapInt (i + 1) = i + 1 :=
        wrapInt_of_mem_range _ (by simp only [minInt]; omega) (by simp only [maxInt]; omega)
      simp only [h0, hwi] at h
      by_cases hlt : i + 1 ≤ times
      · obtain ⟨k, hk, hw1, hfail, hres, hlast⟩ := ih (i + 1) _ _ _ _ (by omega) hlt h
        refine ⟨k + 1, by push_cast; omega, by rw [hw1, runCalls_shift], ?_, ?_, ?_⟩
        · intro j hj
          cases j with
          | zero => rw [h0]; exact Option.some_ne_none e
          | succ j =>
            have := hfail j (by omega)
            rwa [outcome_runCalls_one] at this
        · rw [hres, outcome_runCalls_one]
        · intro hne
          have := hlast hne
          push_cast
          omega
      · cases fuel with
        | zero => simp [MultipleTimes.loop] at h
        | succ fuel =>
          simp only [MultipleTimes.loop, hlt, if_false, Option.some.injEq, Prod.mk.injEq] at h
          obtain ⟨rfl, rfl⟩ := h
          exact ⟨0, by simpa using hit, rfl, fun j hj => absurd hj (Nat.not_lt_zero j),
            h0.symm, fun _ => by push_cast; omega⟩

/-- With `times` below `maxInt` the loop of `MultipleTimes` returns once the fuel covers
the rounds still to go. -/
theorem MultipleTimes_loop_returns {σ ε : Type} (times : Int) (f : Op σ ε)
    (hmax : times < maxInt) (fuel : Nat) (w : World σ) (h0 : 0 ≤ times + 1)
    (hf : times + 2 ≤ (fuel : Int)) :
    (MultipleTimes.loop times f fuel 0 none w).isSome = true := by
  rw [← MultipleTimesWithDelay.loop_eq_of_delay_nonpos (idleRuntime σ) times 0 f (le_refl 0)]
  exact MultipleTimesWithDelay.loop_returns (idleRuntime σ) times 0 f hmax fuel 0 none w
    (le_refl 0) h0 (by omega)

/-- C14: `Once f`, `Twice f` and `Thrice f` are the calls `MultipleTimes 1 f`,
`MultipleTimes 2 f` and `MultipleTimes 3 f`: same result, same world, for every fuel.
Consequently every returning run of them makes `k + 1` successive invocations with
`k ≤ 1`, `k ≤ 2`, `k ≤ 3` retries respectively, every invocation before the last one
failed (a retry happens only after an error), and the result is what the last invocation
returned; and all three return as soon as the fuel covers 5 loop rounds. -/
theorem Once_Twice_Thrice_are_MultipleTimes {σ ε : Type} (f : Op σ ε) (w : World σ)
    (fuel : Nat) :
    (Once f fuel w = MultipleTimes 1 f fuel w
        ∧ Twice f fuel w = MultipleTimes 2 f fuel w
        ∧ Thrice f fuel w = MultipleTimes 3 f fuel w)
      ∧ (∀ res w1, Once f fuel w = some (res, w1) →
          ∃ k : Nat, k ≤ 1 ∧ w1 = runCalls f w (k + 1)
            ∧ (∀ j, j < k → outcome f w.st j ≠ none) ∧ res = outcome f w.st k)
      ∧ (∀ res w1, Twice f fuel w = some (res, w1) →
          ∃ k : Nat, k ≤ 2 ∧ w1 = runCalls f w (k + 1)
            ∧ (∀ j, j < k → outcome f w.st j ≠ none) ∧ res = outcome f w.st k)
      ∧ (∀ res w1, Thrice f fuel w = some (res, w1) →
          ∃ k : Nat, k ≤ 3 ∧ w1 = runCalls f w (k + 1)
            ∧ (∀ j, j < k → outcome f w.st j ≠ none) ∧ res = outcome f w.st k)
      ∧ (5 ≤ fuel → (Once f fuel w).isSome = true ∧ (Twice f fuel w).isSome = true
          ∧ (Thrice f fuel w).isSome = true) := by
  have run : ∀ (n : Nat), (n : Int) < maxInt → ∀ res w1,
      MultipleTimes (n : Int) f fuel w = some (res, w1) →
        ∃ k : Nat, k ≤ n ∧ w1 = runCalls f w (k + 1)
          ∧ (∀ j, j < k → outcome f w.st j ≠ none) ∧ res = outcome f w.st k := by
    intro n hn res w1 h
    obtain ⟨k, hk, hw1, hfail, hres, -⟩ :=
      MultipleTimes.loop_run (n : Int) f hn fuel 0 none w res w1 (le_refl 0) (by omega) h
    exact ⟨k, by omega, hw1, hfail, hres⟩
  refine ⟨⟨rfl, rfl, rfl⟩, run 1 (by decide), run 2 (by decide), run 3 (by decide), ?_⟩
  intro hf
  exact ⟨MultipleTimes_loop_returns 1 f (by decide) fuel w (by decide) (by omega),
    MultipleTimes_loop_returns 2 f (by decide) fuel w (by decide) (by omega),
    MultipleTimes_loop_returns 3 f (by decide) fuel w (by decide) (by omega)⟩

/-- Witness for C14: the operation of `TestMultipleTimesWithDelay`, which fails twice and
then succeeds: `Twice` returns `nil` after 3 invocations, and so does `MultipleTimes 2`. -/
theorem Once_Twice_Thrice_are_MultipleTimes_witness :
    Twice (failFirst 2) 3 ⟨0, []⟩ = some (none, ⟨3, [Event.call, Event.call, Event.call]⟩)
      ∧ MultipleTimes 2 (failFirst 2) 3 ⟨0, []⟩
        = some (none, ⟨3, [Event.call, Event.call, Event.call]⟩) :=
  ⟨rfl, ((Once_Twice_Thrice_are_MultipleTimes (failFirst 2) ⟨0, []⟩ 3).1.2.1).symm.trans rfl⟩

/-! ## What the delay changes -/

/-- When sleeping leaves the state alone, the loops of `MultipleTimesWithDelay` and of
`MultipleTimes` started in the same state return the same error, leave the same state and
make the same number of invocations. -/
theorem MultipleTimesWithDelay.loop_observe {σ ε : Type} (rt : Runtime σ) (times delay : Int)
    (f : Op σ ε) (hsleep : ∀ s, rt.sleep delay s = s) (fuel : Nat) :
    ∀ (i : Int) (err : Option ε) (w v : World σ),
      w.st = v.st → countCalls w.log = countCalls v.log →
      (MultipleTimesWithDelay.loop rt times delay f fuel i err w).map observe
        = (MultipleTimes.loop times f fuel i err v).map observe := by
  induction fuel with
  | zero => intro i err w v _ _; rfl
  | succ fuel ih =>
    intro i err w v hst hlog
    obtain ⟨s, l1⟩ := w
    obtain ⟨s2, l2⟩ := v
    simp only at hst hlog
    subst hst
    by_cases hit : i ≤ times
    · simp only [MultipleTimesWithDelay.loop, MultipleTimes.loop, hit, if_true, invoke]
      cases h0 : (f s).1 with
      | none =>
        simp only [Option.map_some', observe, countCalls_append, hlog]
      | some e =>
        simp only
        apply ih
        · by_cases hs : i < wrapInt (times - 1) ∧ delay > 0
          · simp only [if_pos hs, doSleep, hsleep]
          · simp only [if_neg hs]
        · by_cases hs : i < wrapInt (times - 1) ∧ delay > 0
          · simp only [if_pos hs, doSleep, countCalls_append, countCalls_call,
              countCalls_sleep, hlog]
          · simp only [if_neg hs, countCalls_append, hlog]
    · simp only [MultipleTimesWithDelay.loop, MultipleTimes.loop, hit, if_false,
        Option.map_some', observe, hlog]

/-- The loop of `MultipleTimes` appends nothing but calls to the log. -/
theorem MultipleTimes.loop_calls_only {σ ε : Type} (times : Int) (f : Op σ ε) (fuel : Nat) :
    ∀ (i : Int) (err : Option ε) (w : World σ) (res : Option ε) (w1 : World σ),
      MultipleTimes.loop times f fuel i err w = some (res, w1) →
      ∃ evs, w1.log = w.log ++ evs ∧ countSleeps evs = 0 := by
  induction fuel with
  | zero =>
    intro i err w res w1 h
    simp [MultipleTimes.loop] at h
  | succ fuel ih =>
    intro i err w res w1 h
    by_cases hit : i ≤ times
    · simp only [MultipleTimes.loop, hit, if_true, invoke_eq] at h
      cases h0 : outcome f w.st 0 with
      | none =>
        simp only [h0, Option.some.injEq, Prod.mk.injEq] at h
        obtain ⟨-, rfl⟩ := h
        exact ⟨[Event.call], rfl, countSleeps_call⟩
      | some e =>
        simp only [h0] at h
        obtain ⟨evs, hlog, hc⟩ := ih _ _ _ _ _ h
        rw [runCalls_one_log] at hlog
        refine ⟨[Event.call] ++ evs, by simp [hlog], ?_⟩
        rw [countSleeps_append, countSleeps_call, hc]
    · simp only [MultipleTimes.loop, hit, if_false, Option.some.injEq, Prod.mk.injEq] at h
      obtain ⟨-, rfl⟩ := h
      exact ⟨[], by simp, rfl⟩

/-- C17 fails for an operation that watches the clock: `waitingOp` fails until 3 ns have
passed. `MultipleTimes(2, waitingOp)` makes three quick invocations and returns the
error 1; `MultipleTimesWithDelay(2, 5ns, waitingOp)` sleeps 5 ns after the first failure,
so its second invocation succeeds and it returns `nil` after two invocations. -/
theorem MultipleTimesWithDelay_differs_when_op_watches_clock :
    MultipleTimes 2 waitingOp 4 ⟨0, []⟩
        = some (some 1, ⟨3, [Event.call, Event.call, Event.call]⟩)
      ∧ MultipleTimesWithDelay clockRuntime 2 5 waitingOp 4 ⟨0, []⟩
        = some (none, ⟨7, [Event.call, Event.sleep 5, Event.call]⟩) :=
  ⟨rfl, rfl⟩

/-- C17, as the code has it: for every `n`, every delay and every operation, provided
sleeping for `delay` leaves alone the state the operation lives in,
`MultipleTimesWithDelay n delay f` returns exactly when `MultipleTimes n f` does (same
fuel), with the same result, the same final state and the same number of invocations.
And for every operation and runtime, when `delay ≤ 0` the two calls are the same
computation and no sleep occurs. -/
theorem MultipleTimesWithDelay_same_as_MultipleTimes {σ ε : Type} (rt : Runtime σ)
    (n delay : Int) (f : Op σ ε) (w : World σ) (fuel : Nat)
    (hsleep : ∀ s, rt.sleep delay s = s) :
    (MultipleTimesWithDelay rt n delay f fuel w).map observe
        = (MultipleTimes n f fuel w).map observe
      ∧ (delay ≤ 0 →
          MultipleTimesWithDelay rt n delay f fuel w = MultipleTimes n f fuel w
            ∧ ∀ res w1, MultipleTimesWithDelay rt n delay f fuel w = some (res, w1) →
                ∃ evs, w1.log = w.log ++ evs ∧ countSleeps evs = 0) := by
  refine ⟨MultipleTimesWithDelay.loop_observe rt n delay f hsleep fuel 0 none w w rfl rfl, ?_⟩
  intro hd
  have heq : MultipleTimesWithDelay rt n delay f fuel w = MultipleTimes n f fuel w :=
    MultipleTimesWithDelay.loop_eq_of_delay_nonpos rt n delay f hd fuel 0 none w
  refine ⟨heq, ?_⟩
  intro res w1 h
  exact MultipleTimes.loop_calls_only n f fuel 0 none w res w1 (heq.symm.trans h)

/-- Witness for C17: a runtime whose sleep does not touch the counter state, three
retries, a delay of 5 ns and an operation that fails twice: both calls return `nil`,
leave the counter at 3 and have made 3 invocations. -/
theorem MultipleTimesWithDelay_same_as_MultipleTimes_witness :
    (MultipleTimesWithDelay counterRuntime 3 5 (failFirst 2) 5 ⟨0, []⟩).map observe
        = (MultipleTimes 3 (failFirst 2) 5 ⟨0, []⟩).map observe
      ∧ ((5 : Int) ≤ 0 →
          MultipleTimesWithDelay counterRuntime 3 5 (failFirst 2) 5 ⟨0, []⟩
              = MultipleTimes 3 (failFirst 2) 5 ⟨0, []⟩
            ∧ ∀ res w1, MultipleTimesWithDelay counterRuntime 3 5 (failFirst 2) 5 ⟨0, []⟩
                = some (res, w1) →
                ∃ evs, w1.log = ([] : List Event) ++ evs ∧ countSleeps evs = 0) :=
  MultipleTimesWithDelay_same_as_MultipleTimes counterRuntime 3 5 (failFirst 2) ⟨0, []⟩ 5
    (by intro s; rfl)

/-! ## Cancellation fired during an attempt -/

/-- C18: if the signal has not fired at the top of an iteration and the operation, during
that invocation, fires the signal and also meets the stop condition, the outcome of the
attempt wins: when the invocation fails with `e`, `UntilErrorOrCancel` returns `e`; when
it succeeds, `UntilSuccessOrCancel` and `UntilSucceededOrCancelledWithDelay` return `nil`,
although the error of the signal is by then not `nil`. The call returns in that round,
without another look at the signal and without sleeping. -/
theorem attempt_outcome_precedes_cancellation {σ ε : Type} (rt : Runtime σ)
    (ctx : Context σ ε) (delay : Int) (f : Op σ ε) (w : World σ) (fuel : Nat)
    (hlive : ctx.done w.st = false)
    (hfire : ctx.done (runCalls f w 1).st = true) :
    (∀ e, outcome f w.st 0 = some e →
        UntilErrorOrCancel ctx f (fuel + 1) w = some (some e, runCalls f w 1))
      ∧ (outcome f w.st 0 = none →
        UntilSuccessOrCancel ctx f (fuel + 1) w = some (none, runCalls f w 1)
          ∧ UntilSucceededOrCancelledWithDelay rt ctx delay f (fuel + 1) w
            = some (none, runCalls f w 1))
      ∧ ctx.err (runCalls f w 1).st ≠ none := by
  refine ⟨?_, ?_, ctx.err_of_done _ hfire⟩
  · intro e h0
    simp only [UntilErrorOrCancel, hlive, invoke_eq, h0]
    rfl
  · intro h0
    refine ⟨?_, ?_⟩
    · simp only [UntilSuccessOrCancel, hlive, invoke_eq, h0]
      rfl
    · simp only [UntilSucceededOrCancelledWithDelay, hlive, invoke_eq, h0]
      rfl

/-- Witness for C18: an operation that cancels during its first invocation: failing, it
makes `UntilErrorOrCancel` return its error 1, not the cancellation error 0; succeeding,
it makes the two success loops return `nil`. -/
theorem attempt_outcome_precedes_cancellation_witness :
    UntilErrorOrCancel flagContext (cancelAt 1 true) (0 + 1) ⟨(0, false), []⟩
        = some (some 1, ⟨(1, true), [Event.call]⟩)
      ∧ UntilSuccessOrCancel flagContext (cancelAt 1 false) (0 + 1) ⟨(0, false), []⟩
        = some (none, ⟨(1, true), [Event.call]⟩)
      ∧ UntilSucceededOrCancelledWithDelay flagRuntime flagContext 5 (cancelAt 1 false) (0 + 1)
          ⟨(0, false), []⟩
        = some (none, ⟨(1, true), [Event.call]⟩) :=
  ⟨(attempt_outcome_precedes_cancellation flagRuntime flagContext 5 (cancelAt 1 true)
      ⟨(0, false), []⟩ 0 rfl rfl).1 1 rfl,
    ((attempt_outcome_precedes_cancellation flagRuntime flagContext 5 (cancelAt 1 false)
      ⟨(0, false), []⟩ 0 rfl rfl).2.1 rfl).1,
    ((attempt_outcome_precedes_cancellation flagRuntime flagContext 5 (cancelAt 1 false)
      ⟨(0, false), []⟩ 0 rfl rfl).2.1 rfl).2⟩

/-! ## `UntilSucceededOrCancelledWithDelay` and `UntilSuccessOrCancel` side by side -/

/-- When sleeping leaves the state alone, `UntilSucceededOrCancelledWithDelay` and
`UntilSuccessOrCancel` started in the same state return the same error, leave the same
state and make the same number of invocations. -/
theorem UntilSucceededOrCancelledWithDelay_loop_observe {σ ε : Type} (rt : Runtime σ)
    (ctx : Context σ ε) (delay : Int) (f : Op σ ε) (hsleep : ∀ s, rt.sleep delay s = s)
    (fuel : Nat) :
    ∀ (w v : World σ), w.st = v.st → countCalls w.log = countCalls v.log →
      (UntilSucceededOrCancelledWithDelay rt ctx delay f fuel w).map observe
        = (UntilSuccessOrCancel ctx f fuel v).map observe := by
  induction fuel with
  | zero => intro w v _ _; rfl
  | succ fuel ih =>
    intro w v hst hlog
    obtain ⟨s, l1⟩ := w
    obtain ⟨s2, l2⟩ := v
    simp only at hst hlog
    subst hst
    by_cases hdone : ctx.done s = true
    · simp only [UntilSucceededOrCancelledWithDelay, UntilSuccessOrCancel, hdone, if_true,
        Option.map_some', observe, hlog]
    · simp only [UntilSucceededOrCancelledWithDelay, UntilSuccessOrCancel, hdone, invoke]
      cases h0 : (f s).1 with
      | none =>
        simp [observe, countCalls_append, hlog]
      | some e =>
        simp only [Bool.false_eq_true, if_false]
        apply ih
        · by_cases hd : delay > 0
          · simp only [if_pos hd, doSleep, hsleep]
          · simp only [if_neg hd]
        · by_cases hd : delay > 0
          · simp only [if_pos hd, doSleep, countCalls_append, countCalls_call,
              countCalls_sleep, hlog]
          · simp only [if_neg hd, countCalls_append, hlog]

/-- The sleeps of a returning run of `UntilSucceededOrCancelledWithDelay`: with a positive
delay one after every failed attempt, with any other delay none. -/
theorem UntilSucceededOrCancelledWithDelay_loop_sleeps {σ ε : Type} (rt : Runtime σ)
    (ctx : Context σ ε) (delay : Int) (f : Op σ ε) (fuel : Nat) :
    ∀ (w : World σ) (res : Option ε) (w1 : World σ),
      UntilSucceededOrCancelledWithDelay rt ctx delay f fuel w = some (res, w1) →
      ∃ evs, w1.log = w.log ++ evs
        ∧ (0 < delay → (res = none → countSleeps evs + 1 = countCalls evs)
            ∧ (res ≠ none → countSleeps evs = countCalls evs))
        ∧ (delay ≤ 0 → countSleeps evs = 0) := by
  induction fuel with
  | zero =>
    intro w res w1 h
    simp [UntilSucceededOrCancelledWithDelay] at h
  | succ fuel ih =>
    intro w res w1 h
    by_cases hdone : ctx.done w.st = true
    · simp only [UntilSucceededOrCancelledWithDelay, hdone, if_true, Option.some.injEq,
        Prod.mk.injEq] at h
      obtain ⟨rfl, rfl⟩ := h
      refine ⟨[], by simp, fun _ => ⟨fun hnil => ?_, fun _ => rfl⟩, fun _ => rfl⟩
      exact absurd hnil (ctx.err_of_done _ hdone)
    · simp only [UntilSucceededOrCancelledWithDelay, hdone, invoke_eq] at h
      cases h0 : outcome f w.st 0 with
      | none =>
        simp only [h0, Bool.false_eq_true, if_false, Option.some.injEq, Prod.mk.injEq] at h
        obtain ⟨rfl, rfl⟩ := h
        exact ⟨[Event.call], rfl, fun _ => ⟨fun _ => rfl, fun hne => absurd rfl hne⟩,
          fun _ => rfl⟩
      | some e =>
        simp only [h0, Bool.false_eq_true, if_false] at h
        obtain ⟨evs, hlog, hpos, hnonpos⟩ := ih _ _ _ h
        by_cases hd : delay > 0
        · rw [if_pos hd, doSleep_log, runCalls_one_log] at hlog
          refine ⟨[Event.call] ++ ([Event.sleep delay] ++ evs), by simp [hlog], ?_, ?_⟩
          · intro _
            obtain ⟨hnil, hsome⟩ := hpos hd
            simp only [countCalls_append, countSleeps_append, countCalls_call,
              countSleeps_call, countCalls_sleep, countSleeps_sleep]
            exact ⟨fun hr => by have := hnil hr; omega, fun hr => by have := hsome hr; omega⟩
          · intro hle
            omega
        · rw [if_neg hd, runCalls_one_log] at hlog
          refine ⟨[Event.call] ++ evs, by simp [hlog], ?_, ?_⟩
          · intro hpos2
            exact absurd hpos2 hd
          · intro hle
            rw [countSleeps_append, countSleeps_call, hnonpos hle]

/-- C19 fails for an operation that watches the clock, even with a signal that never
fires (so that its state does not depend on sleeping): `UntilSuccessOrCancel` invokes
`waitingOp` four times before it succeeds, `UntilSucceededOrCancelledWithDelay` with a
delay of 5 ns sleeps after the first failure and succeeds at the second invocation. Both
return `nil`, after a different number of invocations. -/
theorem UntilSucceededOrCancelledWithDelay_differs_when_op_watches_clock :
    (∀ d s, neverContext.done (clockRuntime.sleep d s) = neverContext.done s
        ∧ neverContext.err (clockRuntime.sleep d s) = neverContext.err s)
      ∧ UntilSuccessOrCancel neverContext waitingOp 4 ⟨0, []⟩
        = some (none, ⟨4, [Event.call, Event.call, Event.call, Event.call]⟩)
      ∧ UntilSucceededOrCancelledWithDelay clockRuntime neverContext 5 waitingOp 4 ⟨0, []⟩
        = some (none, ⟨7, [Event.call, Event.sleep 5, Event.call]⟩) :=
  ⟨fun _ _ => ⟨rfl, rfl⟩, rfl, rfl⟩

/-- C19, as the code has it: for every signal, delay and operation, provided sleeping for
`delay` leaves alone the state the signal and the operation live in,
`UntilSucceededOrCancelledWithDelay` returns exactly when `UntilSuccessOrCancel` does
(same fuel), with the same result, the same final state and the same number of
invocations. And, with no proviso on what sleeping does, for every returning call of
`UntilSucceededOrCancelledWithDelay`: when `delay > 0` the sleeps are as many as the
failed attempts (all invocations but the last when the result is `nil`, all invocations
when the call was cancelled), and when `delay ≤ 0` there is no sleep. -/
theorem UntilSucceededOrCancelledWithDelay_same_as_UntilSuccessOrCancel {σ ε : Type}
    (rt : Runtime σ) (ctx : Context σ ε) (delay : Int) (f : Op σ ε) (w : World σ)
    (fuel : Nat) :
    ((∀ s, rt.sleep delay s = s) →
        (UntilSucceededOrCancelledWithDelay rt ctx delay f fuel w).map observe
          = (UntilSuccessOrCancel ctx f fuel w).map observe)
      ∧ ∀ res w1, UntilSucceededOrCancelledWithDelay rt ctx delay f fuel w = some (res, w1) →
          ∃ evs, w1.log = w.log ++ evs
            ∧ (0 < delay → (res = none → countSleeps evs + 1 = countCalls evs)
                ∧ (res ≠ none → countSleeps evs = countCalls evs))
            ∧ (delay ≤ 0 → countSleeps evs = 0) :=
  ⟨fun hsleep =>
      UntilSucceededOrCancelledWithDelay_loop_observe rt ctx delay f hsleep fuel w w rfl rfl,
    UntilSucceededOrCancelledWithDelay_loop_sleeps rt ctx delay f fuel w⟩

/-- Witness for C19: the operation of `TestUntilSuccessOrCancel`, which fails every time
and fires the signal during its third invocation, with a delay of 5 ns: the delayed call
returns the cancellation error after 3 invocations and 3 sleeps, one after every failed
attempt, the last of them after the attempt that fired the signal, and it agrees with the
call without delay. The sleep count also holds on a runtime where sleeping lets time
pass: the run of `waitingOp` on the clock has one failed attempt and one sleep. -/
theorem UntilSucceededOrCancelledWithDelay_same_as_UntilSuccessOrCancel_witness :
    UntilSucceededOrCancelledWithDelay flagRuntime flagContext 5 (cancelAt 3 true) 4
        ⟨(0, false), []⟩
      = some (some 0, ⟨(3, true), [Event.call, Event.sleep 5, Event.call, Event.sleep 5,
          Event.call, Event.sleep 5]⟩)
      ∧ (UntilSucceededOrCancelledWithDelay flagRuntime flagContext 5 (cancelAt 3 true) 4
          ⟨(0, false), []⟩).map observe
        = (UntilSuccessOrCancel flagContext (cancelAt 3 true) 4 ⟨(0, false), []⟩).map observe
      ∧ (∃ evs, [Event.call, Event.sleep 5, Event.call] = ([] : List Event) ++ evs
          ∧ ((0 : Int) < 5 → ((none : Option Nat) = none → countSleeps evs + 1 = countCalls evs)
              ∧ ((none : Option Nat) ≠ none → countSleeps evs = countCalls evs))
          ∧ ((5 : Int) ≤ 0 → countSleeps evs = 0)) :=
  ⟨rfl, (UntilSucceededOrCancelledWithDelay_same_as_UntilSuccessOrCancel flagRuntime
      flagContext 5 (cancelAt 3 true) ⟨(0, false), []⟩ 4).1 (by intro s; rfl),
    (UntilSucceededOrCancelledWithDelay_same_as_UntilSuccessOrCancel clockRuntime
      neverContext 5 waitingOp ⟨0, []⟩ 4).2 none ⟨7, [Event.call, Event.sleep 5, Event.call]⟩
      rfl⟩

/-! ## The helpers of `network.go` -/

theorem dialAttempt_dialed {σ ε : Type} (dial : Dialer σ ε) (address : String) (port : Int)
    (s : NetWorld σ) :
    (dialAttempt dial address port s).2.dialed = s.dialed ++ [hostPort address port] := by
  rcases h : dial tcp (hostPort address port) s.env with ⟨_ | e, env1⟩ <;>
    simp [dialAttempt, h]

theorem dialAttempt_conns_of_failure {σ ε : Type} (dial : Dialer σ ε) (address : String)
    (port : Int) (s : NetWorld σ) (hfail : (dialAttempt dial address port s).1 ≠ none) :
    (dialAttempt dial address port s).2.conns = s.conns := by
  rcases h : dial tcp (hostPort address port) s.env with ⟨_ | e, env1⟩
  · simp [dialAttempt, h] at hfail
  · simp [dialAttempt, h]

theorem dialAttempt_conns_of_success {σ ε : Type} (dial : Dialer σ ε) (address : String)
    (port : Int) (s : NetWorld σ) (hok : (dialAttempt dial address port s).1 = none) :
    (dialAttempt dial address port s).2.conns = s.conns ++ [hostPort address port] := by
  rcases h : dial tcp (hostPort address port) s.env with ⟨_ | e, env1⟩
  · simp [dialAttempt, h]
  · simp [dialAttempt, h] at hok

/-- Every attempt dials `address:port`. -/
theorem stateAfter_dialed {σ ε : Type} (dial : Dialer σ ε) (address : String) (port : Int)
    (s : NetWorld σ) (k : Nat) :
    (stateAfter (dialAttempt dial address port) s k).dialed
      = s.dialed ++ List.replicate k (hostPort address port) := by
  induction k with
  | zero => simp [stateAfter]
  | succ k ih =>
    simp only [stateAfter, dialAttempt_dialed, ih, List.append_assoc, List.replicate_succ']

/-- Failed attempts open no connection. -/
theorem stateAfter_conns_of_failures {σ ε : Type} (dial : Dialer σ ε) (address : String)
    (port : Int) (s : NetWorld σ) (k : Nat)
    (hfail : ∀ i, i < k → outcome (dialAttempt dial address port) s i ≠ none) :
    (stateAfter (dialAttempt dial address port) s k).conns = s.conns := by
  induction k with
  | zero => rfl
  | succ k ih =>
    simp only [stateAfter]
    rw [dialAttempt_conns_of_failure dial address port _ (hfail k (by omega))]
    exact ih (fun i hi => hfail i (by omega))

/-- A successful attempt after `k` failed ones leaves its connection open. -/
theorem stateAfter_conns_of_success {σ ε : Type} (dial : Dialer σ ε) (address : String)
    (port : Int) (s : NetWorld σ) (k : Nat)
    (hfail : ∀ i, i < k → outcome (dialAttempt dial address port) s i ≠ none)
    (hok : outcome (dialAttempt dial address port) s k = none) :
    (stateAfter (dialAttempt dial address port) s (k + 1)).conns
      = s.conns ++ [hostPort address port] := by
  simp only [stateAfter]
  rw [dialAttempt_conns_of_success dial address port _ hok,
    stateAfter_conns_of_failures dial address port s k hfail]

/-- After `K` failures and a success `UntilSuccess` returns `nil`. -/
theorem UntilSuccess_returns_nil_after {σ ε : Type} (f : Op σ ε) (K : Nat) :
    ∀ (w : World σ) (fuel : Nat),
      (∀ i, i < K → outcome f w.st i ≠ none) → outcome f w.st K = none → K + 1 ≤ fuel →
      UntilSuccess f fuel w = some (none, runCalls f w (K + 1)) := by
  induction K with
  | zero =>
    intro w fuel _ hok hfuel
    obtain ⟨n, rfl⟩ : ∃ n, fuel = n + 1 := ⟨fuel - 1, by omega⟩
    simp only [UntilSuccess, invoke_eq, hok]
  | succ K ih =>
    intro w fuel hfail hok hfuel
    obtain ⟨n, rfl⟩ : ∃ n, fuel = n + 1 := ⟨fuel - 1, by omega⟩
    obtain ⟨e, h0⟩ : ∃ e, outcome f w.st 0 = some e :=
      Option.ne_none_iff_exists'.mp (hfail 0 (by omega))
    simp only [UntilSuccess, invoke_eq, h0]
    rw [ih (runCalls f w 1) n ?_ ?_ (by omega), runCalls_shift]
    · intro i hi
      rw [outcome_runCalls_one]
      exact hfail (i + 1) (by omega)
    · rw [outcome_runCalls_one]
      exact hok

/-- After `K` failures and a success, with the signal unfired at the top of each of these
rounds, `UntilSuccessOrCancel` returns `nil`. -/
theorem UntilSuccessOrCancel_returns_nil_after {σ ε : Type} (ctx : Context σ ε) (f : Op σ ε)
    (K : Nat) :
    ∀ (w : World σ) (fuel : Nat),
      (∀ j, j ≤ K → ctx.done (stateAfter f w.st j) = false) →
      (∀ i, i < K → outcome f w.st i ≠ none) → outcome f w.st K = none → K + 1 ≤ fuel →
      UntilSuccessOrCancel ctx f fuel w = some (none, runCalls f w (K + 1)) := by
  induction K with
  | zero =>
    intro w fuel hlive _ hok hfuel
    obtain ⟨n, rfl⟩ : ∃ n, fuel = n + 1 := ⟨fuel - 1, by omega⟩
    have hd : ctx.done w.st = false := hlive 0 (le_refl 0)
    simp only [UntilSuccessOrCancel, hd, invoke_eq, hok]
    rfl
  | succ K ih =>
    intro w fuel hlive hfail hok hfuel
    obtain ⟨n, rfl⟩ : ∃ n, fuel = n + 1 := ⟨fuel - 1, by omega⟩
    have hd : ctx.done w.st = false := hlive 0 (by omega)
    obtain ⟨e, h0⟩ : ∃ e, outcome f w.st 0 = some e :=
      Option.ne_none_iff_exists'.mp (hfail 0 (by omega))
    simp only [UntilSuccessOrCancel, hd, invoke_eq, h0]
    rw [show (if false = true then some (ctx.err w.st, w)
        else UntilSuccessOrCancel ctx f n (runCalls f w 1))
        = UntilSuccessOrCancel ctx f n (runCalls f w 1) from rfl]
    rw [ih (runCalls f w 1) n ?_ ?_ ?_ (by omega), runCalls_shift]
    · intro j hj
      rw [stateAfter_runCalls_one]
      exact hlive (j + 1) (by omega)
    · intro i hi
      rw [outcome_runCalls_one]
      exact hfail (i + 1) (by omega)
    · rw [outcome_runCalls_one]
      exact hok

/-- If every attempt fails and the signal has fired after `K` attempts at the latest,
`UntilSuccessOrCancel` returns the error of the signal at the first loop top that sees it
fired. -/
theorem UntilSuccessOrCancel.returns_error_once_fired {σ ε : Type} (ctx : Context σ ε)
    (f : Op σ ε) (K : Nat) :
    ∀ (w : World σ) (fuel : Nat),
      ctx.done (stateAfter f w.st K) = true →
      (∀ i, i < K → outcome f w.st i ≠ none) → K + 1 ≤ fuel →
      ∃ k, k ≤ K ∧ ctx.done (stateAfter f w.st k) = true
        ∧ UntilSuccessOrCancel ctx f fuel w
          = some (ctx.err (stateAfter f w.st k), runCalls f w k) := by
  induction K with
  | zero =>
    intro w fuel hfire _ hfuel
    obtain ⟨n, rfl⟩ : ∃ n, fuel = n + 1 := ⟨fuel - 1, by omega⟩
    have hd : ctx.done w.st = true := hfire
    exact ⟨0, le_refl 0, hfire, by simp only [UntilSuccessOrCancel, hd, if_true,
      runCalls_zero, stateAfter]⟩
  | succ K ih =>
    intro w fuel hfire hfail hfuel
    obtain ⟨n, rfl⟩ : ∃ n, fuel = n + 1 := ⟨fuel - 1, by omega⟩
    by_cases hd : ctx.done w.st = true
    · exact ⟨0, by omega, hd, by simp only [UntilSuccessOrCancel, hd, if_true,
        runCalls_zero, stateAfter]⟩
    · obtain ⟨e, h0⟩ : ∃ e, outcome f w.st 0 = some e :=
        Option.ne_none_iff_exists'.mp (hfail 0 (by omega))
      obtain ⟨k, hk, hdk, hrun⟩ := ih (runCalls f w 1) n
        (by rw [stateAfter_runCalls_one]; exact hfire)
        (fun i hi => by rw [outcome_runCalls_one]; exact hfail (i + 1) (by omega))
        (by omega)
      rw [stateAfter_runCalls_one] at hdk hrun
      rw [runCalls_shift] at hrun
      refine ⟨k + 1, by omega, hdk, ?_⟩
      simp only [UntilSuccessOrCancel, hd, invoke_eq, h0]
      exact hrun

/-- C15 fails on the code: with a live listener the first dial connects, both helpers
return `nil`, and the connection to `localhost:80` is still open when they return (the
closure drops the connection value without closing it): the set of open connections is
not what it was before the call. -/
theorem ConnectionUntilConnected_leaves_connection_open :
    ConnectionUntilConnected listening localhost 80 1 ⟨⟨0, [], []⟩, []⟩
        = some (none, ⟨⟨1, ["localhost:80"], ["localhost:80"]⟩, [Event.call]⟩)
      ∧ ConnectionUntilConnectedOrTimeout deadlineTimer listening 1000 localhost 80 1
          ⟨⟨0, [], []⟩, []⟩
        = some (none, ⟨⟨1, ["localhost:80"], ["localhost:80"]⟩, [Event.call]⟩)
      ∧ (["localhost:80"] : List String) ≠ [] :=
  ⟨rfl, rfl, by decide⟩

/-- C15, as the code has it: a successful dial is not closed. After `K` failed dials, if
the next dial succeeds, `ConnectionUntilConnected` returns `nil` and leaves exactly one
connection more open than before, the one to `address:port`; so does
`ConnectionUntilConnectedOrTimeout` when its timer has not fired at the top of any of
these rounds. Failed attempts open nothing: when the timer has fired after `K` failed
dials, `ConnectionUntilConnectedOrTimeout` returns an error and the open connections are
those from before the call. -/
theorem connection_stays_open_after_success {σ ε : Type}
    (WithTimeout : Int → σ → TimerContext σ ε) (dial : Dialer σ ε) (timeout : Int)
    (address : String) (port : Int) (w : World (NetWorld σ)) (fuel K : Nat)
    (tc : TimerContext σ ε)
    (htc : WithTimeout timeout w.st.env = tc)
    (hfail : ∀ i, i < K → outcome (dialAttempt dial address port) w.st i ≠ none)
    (hfuel : K + 1 ≤ fuel) :
    (outcome (dialAttempt dial address port) w.st K = none →
        ∃ w1, ConnectionUntilConnected dial address port fuel w = some (none, w1)
          ∧ w1.st.conns = w.st.conns ++ [hostPort address port])
      ∧ ((∀ j, j ≤ K →
            tc.ctx.onEnv.done (stateAfter (dialAttempt dial address port) w.st j) = false) →
          outcome (dialAttempt dial address port) w.st K = none →
          ∃ w1, ConnectionUntilConnectedOrTimeout WithTimeout dial timeout address port fuel w
              = some (none, w1)
            ∧ w1.st.conns = w.st.conns ++ [hostPort address port])
      ∧ (tc.ctx.onEnv.done (stateAfter (dialAttempt dial address port) w.st K) = true →
          ∃ e w1, ConnectionUntilConnectedOrTimeout WithTimeout dial timeout address port fuel w
              = some (some e, w1)
            ∧ w1.st.conns = w.st.conns) := by
  subst htc
  refine ⟨?_, ?_, ?_⟩
  · intro hok
    refine ⟨_, UntilSuccess_returns_nil_after _ K w fuel hfail hok hfuel, ?_⟩
    exact stateAfter_conns_of_success dial address port w.st K hfail hok
  · intro hlive hok
    have hrun := UntilSuccessOrCancel_returns_nil_after _ _ K w fuel hlive hfail hok hfuel
    refine ⟨runDeferred (WithTimeout timeout w.st.env).cancel
      (runCalls (dialAttempt dial address port) w (K + 1)),
      by simp only [ConnectionUntilConnectedOrTimeout, hrun], ?_⟩
    exact stateAfter_conns_of_success dial address port w.st K hfail hok
  · intro hfire
    obtain ⟨k, hk, hdk, hrun⟩ :=
      UntilSuccessOrCancel.returns_error_once_fired _ _ K w fuel hfire hfail hfuel
    obtain ⟨e, he⟩ := Option.ne_none_iff_exists'.mp
      ((WithTimeout timeout w.st.env).ctx.onEnv.err_of_done _ hdk)
    rw [he] at hrun
    refine ⟨e, runDeferred (WithTimeout timeout w.st.env).cancel
      (runCalls (dialAttempt dial address port) w k),
      by simp only [ConnectionUntilConnectedOrTimeout, hrun], ?_⟩
    exact stateAfter_conns_of_failures dial address port w.st k
      (fun i hi => hfail i (by omega))

/-- Witness for C15: two refused dials, none after them: with a timer of 2 ticks
`ConnectionUntilConnectedOrTimeout` returns an error and no connection is open. -/
theorem connection_stays_open_after_success_witness :
    ∃ e w1, ConnectionUntilConnectedOrTimeout deadlineTimer refusing 2 localhost 17821 3
        ⟨⟨0, [], []⟩, []⟩ = some (some e, w1)
      ∧ w1.st.conns = ([] : List String) :=
  (connection_stays_open_after_success deadlineTimer refusing 2 localhost 17821
    ⟨⟨0, [], []⟩, []⟩ 3 2 (deadlineTimer 2 0) rfl
    (by intro i hi; interval_cases i <;> simp [outcome, stateAfter, dialAttempt, refusing])
    (by decide)).2.2 (by rfl)

/-- What an attempt is: the dial of `("tcp", address ++ ":" ++ decimal port)` in the
current environment. Its result is the result of that dial and the environment it leaves
is the one that dial leaves. -/
theorem dialAttempt_is_dial {σ ε : Type} (dial : Dialer σ ε) (address : String) (port : Int)
    (s : NetWorld σ) :
    (dialAttempt dial address port s).1
        = (dial ("tcp") (address ++ ":" ++ toString port) s.env).1
      ∧ (dialAttempt dial address port s).2.env
        = (dial ("tcp") (address ++ ":" ++ toString port) s.env).2 := by
  have hkey : dial ("tcp") (address ++ ":" ++ toString port) s.env
      = dial tcp (hostPort address port) s.env := rfl
  rw [hkey]
  rcases h : dial tcp (hostPort address port) s.env with ⟨_ | e, env1⟩ <;>
    simp [dialAttempt, h]

/-- The attempt depends on the dialer only through what it does when asked to dial
`("tcp", address ++ ":" ++ decimal port)`. -/
theorem dialAttempt_congr {σ ε : Type} (dial dial2 : Dialer σ ε) (address : String)
    (port : Int)
    (hagree : ∀ env, dial2 ("tcp") (address ++ ":" ++ toString port) env
      = dial ("tcp") (address ++ ":" ++ toString port) env) :
    dialAttempt dial2 address port = dialAttempt dial address port := by
  funext s
  have hkey : dial2 tcp (hostPort address port) s.env
      = dial tcp (hostPort address port) s.env := hagree s.env
  simp only [dialAttempt, hkey]

/-- C16: with the dial an arbitrary fallible operation and the timer an arbitrary signal
made from the timeout: if the first `K` dials fail and the timer has fired once they are
over, `ConnectionUntilConnectedOrTimeout` returns (fuel for `K + 1` rounds suffices) an
error that is not `nil`, the error of the timer at the first loop top where it has fired,
after `k ≤ K` dials; if the first `K` dials fail, the next one succeeds and the timer has
not fired at the top of any of these rounds, it returns `nil` after `K + 1` dials. Every
attempt is the dial of `("tcp", address ++ ":" ++ decimal port)`: its result and the
environment it leaves are those of that dial, and the whole call is the same for any two
dialers that agree on that one network and address, whatever they do elsewhere. -/
theorem ConnectionUntilConnectedOrTimeout_result {σ ε : Type}
    (WithTimeout : Int → σ → TimerContext σ ε) (dial : Dialer σ ε) (timeout : Int)
    (address : String) (port : Int) (w : World (NetWorld σ)) (fuel K : Nat)
    (tc : TimerContext σ ε)
    (htc : WithTimeout timeout w.st.env = tc)
    (hfail : ∀ i, i < K → outcome (dialAttempt dial address port) w.st i ≠ none)
    (hfuel : K + 1 ≤ fuel) :
    (tc.ctx.onEnv.done (stateAfter (dialAttempt dial address port) w.st K) = true →
        ∃ k e, k ≤ K
          ∧ ConnectionUntilConnectedOrTimeout WithTimeout dial timeout address port fuel w
            = some (some e, runDeferred tc.cancel (runCalls (dialAttempt dial address port) w k))
          ∧ tc.ctx.onEnv.err (stateAfter (dialAttempt dial address port) w.st k) = some e)
      ∧ ((∀ j, j ≤ K →
            tc.ctx.onEnv.done (stateAfter (dialAttempt dial address port) w.st j) = false) →
          outcome (dialAttempt dial address port) w.st K = none →
          ConnectionUntilConnectedOrTimeout WithTimeout dial timeout address port fuel w
            = some (none,
                runDeferred tc.cancel (runCalls (dialAttempt dial address port) w (K + 1))))
      ∧ (∀ s : NetWorld σ,
          (dialAttempt dial address port s).1
              = (dial ("tcp") (address ++ ":" ++ toString port) s.env).1
            ∧ (dialAttempt dial address port s).2.env
              = (dial ("tcp") (address ++ ":" ++ toString port) s.env).2)
      ∧ (∀ dial2 : Dialer σ ε,
          (∀ env, dial2 ("tcp") (address ++ ":" ++ toString port) env
            = dial ("tcp") (address ++ ":" ++ toString port) env) →
          ConnectionUntilConnectedOrTimeout WithTimeout dial2 timeout address port fuel w
            = ConnectionUntilConnectedOrTimeout WithTimeout dial timeout address port fuel w) := by
  subst htc
  refine ⟨?_, ?_, dialAttempt_is_dial dial address port, ?_⟩
  · intro hfire
    obtain ⟨k, hk, hdk, hrun⟩ :=
      UntilSuccessOrCancel.returns_error_once_fired _ _ K w fuel hfire hfail hfuel
    obtain ⟨e, he⟩ := Option.ne_none_iff_exists'.mp
      ((WithTimeout timeout w.st.env).ctx.onEnv.err_of_done _ hdk)
    refine ⟨k, e, hk, ?_, he⟩
    rw [he] at hrun
    simp only [ConnectionUntilConnectedOrTimeout, hrun]
  · intro hlive hok
    have hrun := UntilSuccessOrCancel_returns_nil_after _ _ K w fuel hlive hfail hok hfuel
    simp only [ConnectionUntilConnectedOrTimeout, hrun]
  · intro dial2 hagree
    simp only [ConnectionUntilConnectedOrTimeout,
      dialAttempt_congr dial dial2 address port hagree]

/-- Witness for C16, after `TestConnectionUntilConnected`: nothing listens on
`localhost:17821`, every dial is refused and takes a tick, the timer fires after 3 ticks:
the call returns the error of the timer after at most 3 dials. -/
theorem ConnectionUntilConnectedOrTimeout_result_witness :
    ∃ k e, k ≤ 3
      ∧ ConnectionUntilConnectedOrTimeout deadlineTimer refusing 3 localhost 17821 4
          ⟨⟨0, [], []⟩, []⟩
        = some (some e, runDeferred (deadlineTimer 3 0).cancel
            (runCalls (dialAttempt refusing localhost 17821) ⟨⟨0, [], []⟩, []⟩ k))
      ∧ (deadlineTimer 3 0).ctx.onEnv.err
          (stateAfter (dialAttempt refusing localhost 17821) ⟨0, [], []⟩ k) = some e :=
  (ConnectionUntilConnectedOrTimeout_result deadlineTimer refusing 3 localhost 17821
    ⟨⟨0, [], []⟩, []⟩ 4 3 (deadlineTimer 3 0) rfl
    (by intro i hi; interval_cases i <;> simp [outcome, stateAfter, dialAttempt, refusing])
    (by decide)).1 (by rfl)

end Retry
